import Mathlib

/-!
Verification of the vol2mesh mesh-processing engine.

This file gives a shallow embedding of the relevant parts of
`vol2mesh/mesh.py` and `vol2mesh/normals.py` into Lean 4 and proves (or
refutes) a list of claims about them.

Modelling conventions:
* numpy float32/float64 arithmetic is modelled by exact rational
  arithmetic (`ℚ`); every claim settled here depends only on values that
  are exactly representable, not on rounding behaviour;
* `np.linalg.norm` involves a square root, which does not exist in `ℚ`;
  it is abstracted by an explicit function parameter `s : ℚ → ℚ`
  standing for `fun q => Real.sqrt q` restricted to the rationals.
  Real square roots satisfy `s 0 = 0`; theorems that need this fact take
  it as a hypothesis.  None of the proved statements depend on any other
  property of `s`;
* numpy arrays are lists; a `(N,3)` array is a `List` of triples;
* Python exceptions (`ValueError` from `np.concatenate([])`, the
  `RuntimeError` of `concatenate_meshes`, `IndexError` from indexing an
  empty quantized vertex array, failed `assert`s) are modelled with
  `Option`/`Except`: `none`/`.error` means the Python code raises.
-/

namespace Vol2mesh

/-- A 3-d float vector (one row of an `(N,3)` numpy array). -/
abbrev Vec3 := ℚ × ℚ × ℚ

/-- One triangle: three vertex indices (one row of the `faces` array). -/
abbrev Face3 := ℕ × ℕ × ℕ

/-- Componentwise subtraction of 3-d vectors. -/
def vsub3 (a b : Vec3) : Vec3 :=
  (a.1 - b.1, a.2.1 - b.2.1, a.2.2 - b.2.2)

/-- Componentwise addition of 3-d vectors. -/
def vadd3 (a b : Vec3) : Vec3 :=
  (a.1 + b.1, a.2.1 + b.2.1, a.2.2 + b.2.2)

/-- `np.cross` for two 3-vectors. -/
def cross3 (u v : Vec3) : Vec3 :=
  (u.2.1 * v.2.2 - u.2.2 * v.2.1,
   u.2.2 * v.1 - u.1 * v.2.2,
   u.1 * v.2.1 - u.2.1 * v.1)

/-- Componentwise division of a 3-d vector by a scalar. -/
def vdiv3 (v : Vec3) (q : ℚ) : Vec3 :=
  (v.1 / q, v.2.1 / q, v.2.2 / q)

/-- Row lookup `vertices_zyx[i]` (faces of a valid mesh are in range). -/
def getV (vs : List Vec3) (i : ℕ) : Vec3 := vs.getD i (0, 0, 0)

/-- Squared L2 norm of a row; `np.linalg.norm v = sqrt (magSq v)`. -/
def magSq (v : Vec3) : ℚ := v.1 * v.1 + v.2.1 * v.2.1 + v.2.2 * v.2.2

/-- Reversal `v[::-1]` of one row, converting between zyx and xyz order. -/
def rev3 (v : Vec3) : Vec3 := (v.2.2, v.2.1, v.1)

/--
The raw (unnormalized) normal of one triangular face, following
`compute_face_normals_numpy` (`normals.py:76-91`): after
`corners = vertices_zyx[faces]` and `v1, v2 = np.diff(corners, axis=0)`
we have `v1 = c1 - c0` and `v2 = c2 - c1`, and the normal is
`np.cross(v2, v1)` (this ordering compensates for the zyx axis order).
-/
def faceNormalRaw (vs : List Vec3) (f : Face3) : Vec3 :=
  cross3 (vsub3 (getV vs f.2.2) (getV vs f.2.1)) (vsub3 (getV vs f.2.1) (getV vs f.1))

/--
The row operation of the `normalize=True` branch of
`compute_face_normals_numpy` (`normals.py:93-96`) and of the final loop
of `compute_vertex_normals_numpy` (`normals.py:137-139`): rows whose
magnitude `s (magSq v)` is nonzero are divided by it; zero-magnitude
rows are left untouched.  `s` abstracts the square root used by
`np.linalg.norm`.
-/
def normalizeRow (s : ℚ → ℚ) (v : Vec3) : Vec3 :=
  if s (magSq v) ≠ 0 then vdiv3 v (s (magSq v)) else v

/--
`compute_face_normals_numpy` (`normals.py:76-99`): raw cross products per
face, then the guarded in-place normalization when `normalize=True`.
-/
def computeFaceNormalsNumpy (s : ℚ → ℚ) (vs : List Vec3) (faces : List Face3)
    (normalize : Bool) : List Vec3 :=
  let raw := faces.map (faceNormalRaw vs)
  if normalize then raw.map (normalizeRow s) else raw

/--
The successive slices `faces[i:i+chunksize]` taken by the loop
`for i in range(0, len(faces), chunksize)` in
`compute_face_normals_numpy_chunked` (`normals.py:107`), for
`chunksize ≥ 1`.  The fuel argument (initialized to the list length,
which always suffices) only makes the recursion structural.
-/
def chunkSlicesAux (cs : ℕ) : ℕ → List Face3 → List (List Face3)
  | 0, _ => []
  | _, [] => []
  | fuel+1, x :: xs => (x :: xs.take (cs-1)) :: chunkSlicesAux cs fuel (xs.drop (cs-1))

/-- The list of slices processed by the chunked loop. -/
def chunkSlices (cs : ℕ) (l : List Face3) : List (List Face3) :=
  chunkSlicesAux cs l.length l

/--
`np.concatenate` over a Python list of arrays: raises `ValueError`
("need at least one array to concatenate") when the list is empty.
-/
def npConcatenate (ls : List (List Vec3)) : Option (List Vec3) :=
  if ls.isEmpty then none else some ls.flatten

/--
`compute_face_normals_numpy_chunked` (`normals.py:102-110`): apply
`compute_face_normals_numpy` to each `chunksize` slice of `faces` and
`np.concatenate` the partial results.  `none` models the two raising
paths: `range` with step 0 (`ValueError`), and `np.concatenate([])` when
`faces` is empty (`ValueError`).
-/
def computeFaceNormalsNumpyChunked (s : ℚ → ℚ) (vs : List Vec3) (faces : List Face3)
    (normalize : Bool) (cs : ℕ) : Option (List Vec3) :=
  if cs = 0 then none
  else npConcatenate ((chunkSlices cs faces).map
    (fun sl => computeFaceNormalsNumpy s vs sl normalize))

/--
`compute_face_normals` (`normals.py:58-73`): always delegates to the
chunked numpy implementation with the default chunk size of 50000.
-/
def computeFaceNormals (s : ℚ → ℚ) (vs : List Vec3) (faces : List Face3)
    (normalize : Bool) : Option (List Vec3) :=
  computeFaceNormalsNumpyChunked s vs faces normalize 50000

/--
`np.add.at base idx vals`: unbuffered in-place accumulation,
`for (i, v) in zip(idx, vals): base[i] += v`.
-/
def addAt (base : List Vec3) (idx : List ℕ) (vals : List Vec3) : List Vec3 :=
  (idx.zip vals).foldl (fun acc iv => acc.set iv.1 (vadd3 (getV acc iv.1) iv.2)) base

/--
`compute_vertex_normals_numpy` (`normals.py:113-141`) with face normals
supplied (the only way the mesh engine calls it): start from a zero
array the shape of `vertices_zyx`, accumulate each face's normal into
its three corner rows with `np.add.at`, then normalize each nonzero row
in place.
-/
def computeVertexNormalsNumpy (s : ℚ → ℚ) (vs : List Vec3) (faces : List Face3)
    (faceNormals : List Vec3) : List Vec3 :=
  let base := List.replicate vs.length ((0 : ℚ), (0 : ℚ), (0 : ℚ))
  let b1 := addAt base (faces.map (fun f => f.1)) faceNormals
  let b2 := addAt b1 (faces.map (fun f => f.2.1)) faceNormals
  let b3 := addAt b2 (faces.map (fun f => f.2.2)) faceNormals
  b3.map (normalizeRow s)

/--
The in-memory mesh entity (`Mesh.__init__`, `mesh.py:41-101`), in its
uncompressed state: vertex rows (zyx order), per-vertex normals (empty
or one row per vertex), triangle faces, bounding box (min corner, max
corner) and the optional chunk metadata `fragment_shape` /
`fragment_origin`.
-/
structure MeshData where
  vertices : List Vec3
  normals : List Vec3
  faces : List Face3
  box : Vec3 × Vec3
  fragmentShape : Option Vec3
  fragmentOrigin : Option Vec3
deriving DecidableEq

/--
The inverted sentinel bounding box assigned by `Mesh.__init__`
(`mesh.py:92-98`) to a mesh with no vertices: min corner `int32` max,
max corner `int32` min, so that it never affects a box union.
-/
def sentinelBox : Vec3 × Vec3 :=
  ((2147483647, 2147483647, 2147483647),
   (-2147483648, -2147483648, -2147483648))

/-- Componentwise minimum of two rows (`np.minimum`). -/
def vmin3 (a b : Vec3) : Vec3 :=
  (min a.1 b.1, min a.2.1 b.2.1, min a.2.2 b.2.2)

/-- Componentwise maximum of two rows (`np.maximum`). -/
def vmax3 (a b : Vec3) : Vec3 :=
  (max a.1 b.1, max a.2.1 b.2.1, max a.2.2 b.2.2)

/-- `vertices.min(axis=0)` over a nonempty list. -/
def vminList (v : Vec3) (vs : List Vec3) : Vec3 := vs.foldl vmin3 v

/-- `vertices.max(axis=0)` over a nonempty list. -/
def vmaxList (v : Vec3) (vs : List Vec3) : Vec3 := vs.foldl vmax3 v

/-- Componentwise `np.ceil` of a row. -/
def vceil3 (v : Vec3) : Vec3 := ((⌈v.1⌉ : ℤ), (⌈v.2.1⌉ : ℤ), (⌈v.2.2⌉ : ℤ))

/--
The bounding box computed by `Mesh.__init__` when no box is supplied
(`mesh.py:89-101`): the sentinel box for an empty mesh, otherwise
`[vertices.min(axis=0), ceil(vertices.max(axis=0))]`.
-/
def defaultBox (vs : List Vec3) : Vec3 × Vec3 :=
  match vs with
  | [] => sentinelBox
  | v :: rest => (vminList v rest, vceil3 (vmaxList v rest))

/--
The `Mesh` constructor (`mesh.py:41-101`) for uncompressed data:
`normals_zyx=None` becomes an empty `(0,3)` array, and supplied normals
must match the vertex shape or be empty (`assert`, modelled as `none`).
-/
def mkMesh (vs : List Vec3) (fs : List Face3) (ns : Option (List Vec3))
    (box : Option (Vec3 × Vec3)) (fragShape fragOrigin : Option Vec3) :
    Option MeshData :=
  let realBox := box.getD (defaultBox vs)
  match ns with
  | none => some ⟨vs, [], fs, realBox, fragShape, fragOrigin⟩
  | some ns =>
      if ns.length = vs.length ∨ ns.length = 0 then
        some ⟨vs, ns, fs, realBox, fragShape, fragOrigin⟩
      else none

/--
`Mesh.recompute_normals` (`mesh.py:810-836`): compute face normals
(which raises if the face array is empty, see `npConcatenate`);
optionally drop every face whose face normal is exactly zero; if no
faces remain truncate vertices and normals to empty, else compute the
per-vertex normals from the remaining faces.  Since each row of the
computed face-normal array equals `faceNormalRaw` of the corresponding
face, filtering the two arrays by the rows' nonzero mask is expressed
directly as a filter on faces.
-/
def recomputeNormals (s : ℚ → ℚ) (removeDegenerate : Bool) (m : MeshData) :
    Option MeshData :=
  match computeFaceNormals s m.vertices m.faces false with
  | none => none
  | some _ =>
    let faces2 :=
      if removeDegenerate then
        m.faces.filter (fun f => decide (faceNormalRaw m.vertices f ≠ (0, 0, 0)))
      else m.faces
    if faces2.isEmpty then
      some { m with vertices := [], normals := [], faces := [] }
    else
      some { m with
        faces := faces2,
        normals := computeVertexNormalsNumpy s m.vertices faces2
          (faces2.map (faceNormalRaw m.vertices)) }

/-- The index of the first occurrence of `v` in `vs`. -/
def firstIdx (v : Vec3) : List Vec3 → ℕ
  | [] => 0
  | w :: ws => if w = v then 0 else firstIdx v ws + 1

/--
Modelled from the spec: `first_occurrences` is imported from
`vol2mesh/util.py`, which is not among the provided sources.  Per the
spec (section 4.2, duplicate-vertex canonicalization), for each group of
bit-identical vertex positions all members map to the index of the first
occurrence in list order; the function returns the
`(duplicate_index, first_index)` mapping pairs for every vertex that is
not the first occurrence of its position.
-/
def firstOccurrences (vs : List Vec3) : List (ℕ × ℕ) :=
  (List.range vs.length).filterMap (fun i =>
    let j := firstIdx (getV vs i) vs
    if j < i then some (i, j) else none)

/-- Apply the vertex remapping array built in `mesh.py:743-745`. -/
def applyMapping (pairs : List (ℕ × ℕ)) (i : ℕ) : ℕ :=
  match pairs.find? (fun p => p.1 = i) with
  | some p => p.2
  | none => i

/-- Remap the three corners of one face. -/
def mapFace (g : ℕ → ℕ) (f : Face3) : Face3 := (g f.1, g f.2.1, g f.2.2)

/-- Whether vertex index `i` is referenced by some face. -/
def vertexUsed (faces : List Face3) (i : ℕ) : Bool :=
  faces.any (fun f => f.1 = i ∨ f.2.1 = i ∨ f.2.2 = i)

/--
The prefix-sum shift of `Mesh.drop_unused_vertices` (`mesh.py:792-801`):
an index is decremented by the number of unused indices below it.
-/
def unusedBelow (faces : List Face3) (n i : ℕ) : ℕ :=
  ((List.range n).filter (fun j => decide (j < i) && !(vertexUsed faces j))).length

/--
`Mesh.drop_unused_vertices` (`mesh.py:780-807`): shift the face indices
down past the dropped rows, delete every vertex row not referenced by
any face, and delete the matching normal rows when normals are present.
-/
def dropUnusedVertices (m : MeshData) : MeshData :=
  let n := m.vertices.length
  let keep := fun (i : ℕ) => vertexUsed m.faces i
  { m with
    faces := m.faces.map (mapFace (fun i => i - unusedBelow m.faces n i)),
    vertices := ((List.range n).filter keep).map (getV m.vertices),
    normals :=
      if m.normals.length > 0 then
        ((List.range n).filter keep).map (fun i => m.normals.getD i (0, 0, 0))
      else m.normals }

/-- Sort the three corner indices of a face (`np.sort(faces, axis=1)`). -/
def sortFace3 (f : Face3) : Face3 :=
  let a := min f.1 (min f.2.1 f.2.2)
  let c := max f.1 (max f.2.1 f.2.2)
  (a, f.1 + f.2.1 + f.2.2 - a - c, c)

/--
The duplicate-face drop of `mesh.py:760-772`: keep a face only if no
earlier face has the same sorted corner triple (pandas
`DataFrame.duplicated`, which marks later occurrences).
-/
def dropDupFacesAux (seen : List Face3) : List Face3 → List Face3
  | [] => []
  | f :: fs =>
      if sortFace3 f ∈ seen then dropDupFacesAux seen fs
      else f :: dropDupFacesAux (sortFace3 f :: seen) fs

/--
`Mesh.stitch_adjacent_faces` (`mesh.py:698-777`): find the
duplicate-vertex mapping pairs; if there are none, recompute normals
(iff normals were present) and report `False`; otherwise discard the
normals, remap the faces through the mapping, optionally drop unused
vertices and duplicate faces, recompute normals iff they were present,
and report `True`.  The result pairs the final mesh with the returned
bool; `none` propagates the `ValueError` raised by normal recomputation
on an empty face array.
-/
def stitchAdjacentFaces (s : ℚ → ℚ) (dropUnused dropDup : Bool) (m : MeshData) :
    Option (MeshData × Bool) :=
  let needNormals := m.normals.length > 0
  let pairs := firstOccurrences m.vertices
  if pairs.isEmpty then
    if needNormals then (recomputeNormals s true m).map (fun m2 => (m2, false))
    else some (m, false)
  else
    let m1 := { m with normals := [],
                       faces := m.faces.map (mapFace (applyMapping pairs)) }
    let m2 := if dropUnused then dropUnusedVertices m1 else m1
    let m3 := if dropDup then { m2 with faces := dropDupFacesAux [] m2.faces } else m2
    if needNormals then (recomputeNormals s true m3).map (fun m4 => (m4, true))
    else some (m3, true)

/-- Sort a pair ascending (`all_edges.sort(axis=1)`, `mesh.py:1016`). -/
def sortPair (e : ℕ × ℕ) : ℕ × ℕ := (min e.1 e.2, max e.1 e.2)

/--
The edge list built by `Mesh.laplacian_smooth` (`mesh.py:1013-1015`):
columns `(0,1)`, `(1,2)` and `(2,0)` of the face array, concatenated.
-/
def faceEdges (faces : List Face3) : List (ℕ × ℕ) :=
  faces.map (fun f => (f.1, f.2.1)) ++ faces.map (fun f => (f.2.1, f.2.2))
    ++ faces.map (fun f => (f.2.2, f.1))

/-- Pandas `drop_duplicates` (keep first) on the edge rows. -/
def dedupPairsAux (seen : List (ℕ × ℕ)) : List (ℕ × ℕ) → List (ℕ × ℕ)
  | [] => []
  | e :: es =>
      if e ∈ seen then dedupPairsAux seen es
      else e :: dedupPairsAux (e :: seen) es

/-- Stable insertion used to model a stable sort of edge rows. -/
def insertPairLex (x : ℕ × ℕ) : List (ℕ × ℕ) → List (ℕ × ℕ)
  | [] => [x]
  | y :: ys =>
      if x.1 < y.1 ∨ (x.1 = y.1 ∧ x.2 < y.2) then x :: y :: ys
      else y :: insertPairLex x ys

/--
The stable lexicographic sort `edges_df.sort_values(['v1_id','v2_id'])`
(`mesh.py:1023`).
-/
def sortPairsLex (l : List (ℕ × ℕ)) : List (ℕ × ℕ) :=
  l.foldl (fun acc x => insertPairLex x acc) []

/--
`np.bincount` over both columns of the edge list (`mesh.py:1026`): the
number of deduplicated edges mentioning vertex `i`.
-/
def degreeOf (edges : List (ℕ × ℕ)) (i : ℕ) : ℕ :=
  (edges.filter (fun e => e.1 = i)).length + (edges.filter (fun e => e.2 = i)).length

/--
One Jacobi-style smoothing pass (`mesh.py:1029-1050`): start from a copy
of the current positions, accumulate each edge's opposite endpoint into
both endpoint rows with `np.add.at`, and divide every row by its degree
plus one.
-/
def smoothIter (edges : List (ℕ × ℕ)) (deg : ℕ → ℕ) (vs : List Vec3) : List Vec3 :=
  let acc1 := addAt vs (edges.map (fun e => e.1)) (edges.map (fun e => getV vs e.2))
  let acc2 := addAt acc1 (edges.map (fun e => e.2)) (edges.map (fun e => getV vs e.1))
  acc2.mapIdx (fun i v => vdiv3 v ((deg i : ℚ) + 1))

/--
The vertex array after `iters` synchronous smoothing passes of
`Mesh.laplacian_smooth` (`mesh.py:1012-1050`): build the deduplicated
sorted edge list and the vertex degrees, then iterate the Jacobi-style
update (the buffer swap of the source is an allocation optimization
with the same values).
-/
def smoothedVertices (faces : List Face3) (iters : ℕ) (vs : List Vec3) : List Vec3 :=
  let edges := sortPairsLex (dedupPairsAux [] ((faceEdges faces).map sortPair))
  (smoothIter edges (degreeOf edges))^[iters] vs

/--
`Mesh.laplacian_smooth` (`mesh.py:976-1064`): with zero iterations,
recompute normals only if none are present, else return unchanged;
otherwise discard the normals, replace the vertices by the smoothed
vertices and finish with `recompute_normals(True)`.  `none` propagates
the `ValueError` that normal recomputation raises on an empty face
array.
-/
def laplacianSmooth (s : ℚ → ℚ) (iterations : ℕ) (m : MeshData) : Option MeshData :=
  if iterations = 0 then
    if m.normals.length = 0 then recomputeNormals s true m else some m
  else
    recomputeNormals s true
      { m with normals := [], vertices := smoothedVertices m.faces iterations m.vertices }

/--
The per-axis map applied by `Mesh.quantize` (`mesh.py:1257`) to a vertex
already reversed into xyz order:
`np.minimum(upper_bound, np.maximum(0, (vertex - offset) * upper_bound / fragment_shape + 0.5))`.
Note the code adds `0.5` and clamps, but never rounds the result to an
integer.
-/
def quantizeVertexXyz (ub : ℚ) (o sh v : Vec3) : Vec3 :=
  (min ub (max 0 ((v.1 - o.1) * ub / sh.1 + 1/2)),
   min ub (max 0 ((v.2.1 - o.2.1) * ub / sh.2.1 + 1/2)),
   min ub (max 0 ((v.2.2 - o.2.2) * ub / sh.2.2 + 1/2)))

/--
`Mesh.quantize` (`mesh.py:1249-1260`): map every vertex (reversed into
xyz order and back) through `quantizeVertexXyz` with
`upper_bound = 2^bits - 1`, then reset `fragment_origin` to zero and
`fragment_shape` to the upper bound.  `none` models the `AttributeError`
raised when the fragment metadata is unset, and the `IndexError` raised
for a mesh with no vertices (the rebuilt `np.array([])` is
one-dimensional, so `vertices[:,::-1]` fails).
-/
def quantize (bits : ℕ) (m : MeshData) : Option MeshData :=
  match m.fragmentShape, m.fragmentOrigin with
  | some sh, some o =>
      if m.vertices.isEmpty then none
      else
        let ub : ℚ := 2 ^ bits - 1
        some { m with
          vertices := m.vertices.map (fun v => rev3 (quantizeVertexXyz ub o sh (rev3 v))),
          fragmentOrigin := some (0, 0, 0),
          fragmentShape := some (ub, ub, ub) }
  | _, _ => none

/-- The distinct raising paths of `concatenate_meshes`. -/
inductive ConcatError
  | inconsistentNormals
  | emptyConcatenate
  | constructorAssert
deriving DecidableEq

/--
The success condition of `_verify_concatenate_inputs`
(`mesh.py:1500-1504`): either no input mesh has any normals, or every
input mesh's normals count equals its own vertex count.
-/
def verifyConcatenateInputs (ms : List MeshData) : Bool :=
  ms.all (fun m => m.normals.length = 0)
    || ms.all (fun m => m.vertices.length = m.normals.length)

/--
Face renumbering of `concatenate_meshes` (`mesh.py:1436-1445`): each
mesh's faces are shifted by the cumulative vertex count of the
preceding meshes.
-/
def concatFacesAux (off : ℕ) : List MeshData → List Face3
  | [] => []
  | m :: rest =>
      m.faces.map (mapFace (fun i => i + off)) ++ concatFacesAux (off + m.vertices.length) rest

/--
Box union of `concatenate_meshes` (`mesh.py:1448-1450`): componentwise
min of the input boxes' min corners and max of their max corners
(meaningful only for a nonempty input list, which is enforced earlier).
-/
def boxUnion (bs : List (Vec3 × Vec3)) : Vec3 × Vec3 :=
  match bs with
  | [] => sentinelBox
  | b :: rest => rest.foldl (fun acc b2 => (vmin3 acc.1 b2.1, vmax3 acc.2 b2.2)) b

/--
`concatenate_meshes` (`mesh.py:1402-1452`): with `keep_normals` the
inputs are validated first (`RuntimeError` on an inconsistent-normals
combination); `np.concatenate` then raises `ValueError` for an empty
input list; otherwise vertices and normals are concatenated in order,
faces are renumbered by running vertex offsets, the box union is taken,
and the `Mesh` constructor (whose shape assertion is kept) builds the
result.
-/
def concatenateMeshes (keepNormals : Bool) (ms : List MeshData) :
    Except ConcatError MeshData :=
  if keepNormals ∧ ¬ (verifyConcatenateInputs ms = true) then
    .error .inconsistentNormals
  else if ms.isEmpty then
    .error .emptyConcatenate
  else
    let vs := (ms.map (fun m => m.vertices)).flatten
    let ns : Option (List Vec3) :=
      if keepNormals then some ((ms.map (fun m => m.normals)).flatten) else none
    let fs := concatFacesAux 0 ms
    let box := boxUnion (ms.map (fun m => m.box))
    match mkMesh vs fs ns (some box) none none with
    | some mm => .ok mm
    | none => .error .constructorAssert

/-- A compressed byte buffer. -/
abbrev Blob := List ℕ

/--
The abstract external codecs used by the compression state machine:
`lz4.frame.compress`/`decompress`, the draco encoders/decoder of
`dvidutils`, and the byte views used to move between arrays and
buffers.  The idempotence claim holds for every choice of these
functions, so they are parameters.
-/
structure Codecs where
  lz4Compress : Blob → Blob
  lz4Decompress : Blob → Blob
  dracoEncode : List Vec3 → List Vec3 → List Face3 → Blob
  dracoEncodeCustom : List Vec3 → List Vec3 → List Face3 → Option Vec3 → Option Vec3 → Blob
  dracoDecode : Blob → List Vec3 × List Vec3 × List Face3
  bytesOfV : List Vec3 → Blob
  bytesOfF : List Face3 → Blob
  arrayOfBytesV : Blob → List Vec3
  arrayOfBytesF : Blob → List Face3

/--
The compression-relevant private state of a `Mesh`
(`mesh.py:67-70,83-86`): the three array members (each `None` while
compressed), the draco blob, the lz4 item list, and the fragment
metadata consumed by the custom draco encoder.
-/
structure MeshState where
  vertices : Option (List Vec3)
  normals : Option (List Vec3)
  faces : Option (List Face3)
  dracoBytes : Option Blob
  lz4Items : Option (List Blob)
  fragmentShape : Option Vec3
  fragmentOrigin : Option Vec3
deriving DecidableEq

/--
`Mesh._uncompress` (`mesh.py:565-607`): decode from draco if a draco
blob is held, else from lz4 (decompressing twice, since the encoder
compressed twice) if lz4 items are held, else leave the state alone.
-/
def uncompressState (C : Codecs) (m : MeshState) : MeshState :=
  match m.dracoBytes with
  | some b =>
      let d := C.dracoDecode b
      { m with vertices := some (d.1.map rev3), normals := some (d.2.1.map rev3),
               faces := some d.2.2, dracoBytes := none }
  | none =>
      match m.lz4Items with
      | some items =>
          let u := (items.map C.lz4Decompress).map C.lz4Decompress
          { m with
            vertices := some (C.arrayOfBytesV (u.getD 0 [])),
            normals := some (C.arrayOfBytesV (u.getD 1 [])),
            faces := some (C.arrayOfBytesF (u.getD 2 [])),
            lz4Items := none }
      | none => m

/--
`Mesh._compress_as_lz4` (`mesh.py:542-562`): if lz4 items are already
held, return their total length without touching the state; otherwise
decompress from draco if needed, compress the three flattened arrays
independently, compress each result a second time, drop the raw arrays
and store the items.
-/
def compressAsLz4 (C : Codecs) (m : MeshState) : ℕ × MeshState :=
  match m.lz4Items with
  | some items => ((items.map List.length).sum, m)
  | none =>
      let m1 := uncompressState C m
      let once := [C.lz4Compress (C.bytesOfV (m1.vertices.getD [])),
                   C.lz4Compress (C.bytesOfV (m1.normals.getD [])),
                   C.lz4Compress (C.bytesOfF (m1.faces.getD []))]
      let items := once.map C.lz4Compress
      ((items.map List.length).sum,
       { m1 with vertices := none, normals := none, faces := none,
                 lz4Items := some items })

/--
`Mesh._compress_as_draco` (`mesh.py:520-529`): if a draco blob is
already held, return its length without touching the state; otherwise
decompress from lz4 if needed, encode (arrays reversed into xyz order)
and drop the raw arrays.
-/
def compressAsDraco (C : Codecs) (m : MeshState) : ℕ × MeshState :=
  match m.dracoBytes with
  | some b => (b.length, m)
  | none =>
      let m1 := uncompressState C m
      let b := C.dracoEncode ((m1.vertices.getD []).map rev3)
        ((m1.normals.getD []).map rev3) (m1.faces.getD [])
      (b.length,
       { m1 with vertices := none, normals := none, faces := none,
                 dracoBytes := some b })

/--
`Mesh._compress_as_custom_draco` (`mesh.py:531-540`): same caching
check as `_compress_as_draco`, but encoding with the fragment metadata.
-/
def compressAsCustomDraco (C : Codecs) (m : MeshState) : ℕ × MeshState :=
  match m.dracoBytes with
  | some b => (b.length, m)
  | none =>
      let m1 := uncompressState C m
      let b := C.dracoEncodeCustom ((m1.vertices.getD []).map rev3)
        ((m1.normals.getD []).map rev3) (m1.faces.getD [])
        m1.fragmentShape m1.fragmentOrigin
      (b.length,
       { m1 with vertices := none, normals := none, faces := none,
                 dracoBytes := some b })

/-- The compression methods accepted by `Mesh.compress` (besides `None`). -/
inductive CompressMethod
  | lz4
  | draco
  | customDraco
deriving DecidableEq

/--
`Mesh.compress` (`mesh.py:500-517`) restricted to the non-`None`
methods: dispatch to the matching private encoder.
-/
def compressMesh (C : Codecs) (method : CompressMethod) (m : MeshState) :
    ℕ × MeshState :=
  match method with
  | .lz4 => compressAsLz4 C m
  | .draco => compressAsDraco C m
  | .customDraco => compressAsCustomDraco C m

/--
The cached encoded size that `Mesh.compress` reports for a mesh that is
already compressed with a representation matching `method`.
-/
def cachedCompressedSize (method : CompressMethod) (m : MeshState) : ℕ :=
  match method with
  | .lz4 => ((m.lz4Items.getD []).map List.length).sum
  | .draco => (m.dracoBytes.getD []).length
  | .customDraco => (m.dracoBytes.getD []).length

/-- An integer 3-d brick coordinate as compared by `_cmp_zorder`. -/
abbrev Vec3N := ℕ × ℕ × ℕ

/-- Component lookup `a[d]` for a 3-d coordinate. -/
def idx3 (a : Vec3N) : ℕ → ℕ
  | 0 => a.1
  | 1 => a.2.1
  | _ => a.2.2

/--
The helper `less_msb` of `_cmp_zorder` (`mesh.py:1548-1549`):
`x < y and x < (x ^ y)`, which holds exactly when the most significant
set bit of `x` is strictly below that of `y`.
-/
def lessMsb (x y : ℕ) : Bool :=
  decide (x < y) && decide (x < (x ^^^ y))

/--
The most significant dimension selected by the loop of `_cmp_zorder`
(`mesh.py:1553-1560`): start from axis 2 and move to axis 1 and then
axis 0 only when the corresponding componentwise XOR has a strictly
higher most-significant bit.
-/
def zMsd (a b : Vec3N) : ℕ :=
  let m1 := if lessMsb (idx3 a 2 ^^^ idx3 b 2) (idx3 a 1 ^^^ idx3 b 1) then 1 else 2
  if lessMsb (idx3 a m1 ^^^ idx3 b m1) (idx3 a 0 ^^^ idx3 b 0) then 0 else m1

/--
`_cmp_zorder` (`mesh.py:1547-1561`): the comparator value
`lhs[msd] - rhs[msd]` (negative means `lhs` precedes `rhs` under
`functools.cmp_to_key`).
-/
def cmpZorder (a b : Vec3N) : ℤ :=
  (idx3 a (zMsd a b) : ℤ) - (idx3 b (zMsd a b) : ℤ)

/--
Bit interleaving with axis 2 most significant within each bit position,
the canonical Morton (Z-curve) code matching the axis priority of
`_cmp_zorder`.  The fuel argument (initialized to `x + y + z`, which
always suffices) only makes the recursion structural.
-/
def ilvAux : ℕ → ℕ → ℕ → ℕ → ℕ
  | 0, _, _, _ => 0
  | fuel+1, x, y, z =>
      if x = 0 ∧ y = 0 ∧ z = 0 then 0
      else x % 2 + 2 * (y % 2) + 4 * (z % 2) + 8 * ilvAux fuel (x / 2) (y / 2) (z / 2)

/-- The Morton code of a triple. -/
def interleave3 (x y z : ℕ) : ℕ := ilvAux (x + y + z) x y z

/-- The reference Morton key of a 3-d brick coordinate. -/
def mortonKey (a : Vec3N) : ℕ := interleave3 a.1 a.2.1 a.2.2

/-- Stable insertion of a coordinate under a strict "less" test. -/
def insertCoord (lt : Vec3N → Vec3N → Bool) (x : Vec3N) : List Vec3N → List Vec3N
  | [] => [x]
  | y :: ys => if lt x y then x :: y :: ys else y :: insertCoord lt x ys

/--
Python's stable `sorted` under a strict "less" comparison, as used with
`functools.cmp_to_key(_cmp_zorder)` in `concatenate_mesh_bytes`
(`mesh.py:1495`).
-/
def pySortCoords (lt : Vec3N → Vec3N → Bool) (l : List Vec3N) : List Vec3N :=
  l.foldl (fun acc x => insertCoord lt x acc) []

/-- The 8 octant coordinates (0,0,0) … (1,1,1). -/
def octantCoords : List Vec3N :=
  [(0,0,0), (0,0,1), (0,1,0), (0,1,1), (1,0,0), (1,0,1), (1,1,0), (1,1,1)]

/-- The supported mesh formats (`Mesh.MESH_FORMATS`, `mesh.py:39`). -/
inductive MeshFormat
  | obj
  | drc
  | customDrc
  | ngmesh
deriving DecidableEq

/-- File extensions dispatched by `Mesh.from_file` (`mesh.py:125-143`). -/
inductive FileExt
  | obj
  | drc
  | ngmesh
  | other
deriving DecidableEq

/--
The external format decoders used by `Mesh.from_buffer`.  `read_obj`
(`obj_utils.py`), `read_ngmesh` (`ngmesh.py`) and
`decode_drc_bytes_to_faces` (`dvidutils`) are not among the provided
sources, so they are abstract parameters; every theorem about the
loaders holds for all of them, because the zero-byte shortcut fires
before any decoder runs.
-/
structure FormatDecoders where
  readObj : Blob → List Vec3 × List Face3 × List Vec3
  readNgmesh : Blob → List Vec3 × List Face3
  decodeDrc : Blob → List Vec3 × List Vec3 × List Face3

/--
`Mesh.from_buffer` (`mesh.py:219-254`): a zero-length buffer yields an
empty mesh for every supported format; otherwise dispatch to the format
decoder (reversing xyz data into zyx).  `custom_drc` has no branch in
the source and falls through, returning Python's `None`; together with
possible constructor-assert failures this is modelled by `none`.
-/
def fromBuffer (P : FormatDecoders) (buf : Blob) (fmt : MeshFormat) : Option MeshData :=
  if buf.length = 0 then
    mkMesh [] [] none none none none
  else
    match fmt with
    | .obj =>
        let d := P.readObj buf
        mkMesh (d.1.map rev3) d.2.1 (some (d.2.2.map rev3)) none none none
    | .drc =>
        let d := P.decodeDrc buf
        mkMesh (d.1.map rev3) d.2.2 (some (d.2.1.map rev3)) none none none
    | .ngmesh =>
        let d := P.readNgmesh buf
        mkMesh (d.1.map rev3) d.2 none none none none
    | .customDrc => none

/--
`Mesh.from_file` (`mesh.py:111-143`): a zero-size file yields an empty
mesh before the extension is even inspected; otherwise dispatch on the
extension (an unknown extension raises `RuntimeError`, modelled by
`none`).  The file contents stand in for the path.
-/
def fromFile (P : FormatDecoders) (content : Blob) (ext : FileExt) : Option MeshData :=
  if content.length = 0 then
    mkMesh [] [] none none none none
  else
    match ext with
    | .drc => fromBuffer P content .drc
    | .obj => fromBuffer P content .obj
    | .ngmesh => fromBuffer P content .ngmesh
    | .other => none

/-- A tar member: a name and the member's byte contents. -/
abbrev TarMember := ℕ × Blob

/-- Stable insertion of a tar member by name. -/
def insertMember (x : TarMember) : List TarMember → List TarMember
  | [] => [x]
  | y :: ys => if x.1 < y.1 then x :: y :: ys else y :: insertMember x ys

/--
Python's stable `sorted(tf.getmembers(), key=lambda m: m.name)`
(`mesh.py:196`): members with equal names keep their storage order.
-/
def sortMembers (l : List TarMember) : List TarMember :=
  l.foldl (fun acc x => insertMember x acc) []

/--
Python dict assignment `meshes[name] = mesh`: replace the value in
place if the key exists, else append.
-/
def dictInsert (acc : List (ℕ × MeshData)) (k : ℕ) (v : MeshData) :
    List (ℕ × MeshData) :=
  if acc.any (fun p => p.1 = k) then
    acc.map (fun p => if p.1 = k then (k, v) else p)
  else acc ++ [(k, v)]

/--
`Mesh.from_tarfile` with `concatenate=False` (`mesh.py:159-216`): sort
the members by name, then for each member whose extension is a mesh
format (the predicate `isMesh` on the name) and whose size is positive,
decode it with `Mesh.from_buffer` (the abstract `decode`; a member that
fails to decode is logged and skipped) and store it in the name-keyed
dict.  Member names are modelled as naturals carrying the
lexicographic-order structure Python sorts by.
-/
def fromTarfile (isMesh : ℕ → Bool) (decode : Blob → Option MeshData)
    (members : List TarMember) : List (ℕ × MeshData) :=
  (sortMembers members).foldl (fun acc mem =>
    if isMesh mem.1 && decide (0 < mem.2.length) then
      match decode mem.2 with
      | some mesh => dictInsert acc mem.1 mesh
      | none => acc
    else acc) []

/--
`Mesh.from_tarfile` with `concatenate=True` (`mesh.py:213-214`):
concatenate the dict's values.
-/
def fromTarfileConcat (isMesh : ℕ → Bool) (decode : Blob → Option MeshData)
    (keepNormals : Bool) (members : List TarMember) : Except ConcatError MeshData :=
  concatenateMeshes keepNormals ((fromTarfile isMesh decode members).map (fun p => p.2))

/-- The empty mesh produced by the zero-byte shortcut of the loaders. -/
def emptyMeshData : MeshData := ⟨[], [], [], sentinelBox, none, none⟩

/-- A unit-cube fragment mesh holding its own min and max corner. -/
def c1CounterMesh : MeshData :=
  ⟨[(0,0,0), (1,1,1)], [], [], ((0,0,0), (1,1,1)), some (1,1,1), some (0,0,0)⟩

/-- The same fragment mesh, used to instantiate the amended C1 claim. -/
def c1WitnessMesh : MeshData :=
  ⟨[(0,0,0), (1,1,1)], [], [], ((0,0,0), (1,1,1)), some (1,1,1), some (0,0,0)⟩

/--
Three distinct collinear vertices with one (degenerate) face and
normals attached: no vertex is duplicated, yet stitching recomputes the
normals and wipes the mesh.
-/
def c2CounterMesh : MeshData :=
  ⟨[(0,0,0), (1,1,1), (2,2,2)], [(1,0,0), (1,0,0), (1,0,0)], [(0,1,2)],
   ((0,0,0), (2,2,2)), none, none⟩

/-- A duplicate-free mesh without normals, for the amended C2 claim. -/
def c2WitnessMesh : MeshData :=
  ⟨[(0,0,0), (1,1,1), (2,0,1)], [], [(0,1,2)], ((0,0,0), (2,2,2)), none, none⟩

/--
A mesh with a degenerate face and stale normals: `laplacian_smooth(0)`
returns it unchanged, leaving a face whose face normal is exactly zero.
-/
def c3CounterMesh : MeshData :=
  ⟨[(0,0,0), (1,1,1), (2,2,2)], [(1,0,0), (1,0,0), (1,0,0)], [(0,1,2)],
   ((0,0,0), (2,2,2)), none, none⟩

/-- A one-triangle mesh without normals, for the amended C3 claim. -/
def c3WitnessMesh : MeshData :=
  ⟨[(0,0,0), (0,0,1), (0,1,0)], [], [(0,1,2)], ((0,0,0), (1,1,1)), none, none⟩

/-- The result of recomputing the witness mesh's normals. -/
def c3WitnessResult : MeshData :=
  ⟨[(0,0,0), (0,0,1), (0,1,0)], [(1,0,0), (1,0,0), (1,0,0)], [(0,1,2)],
   ((0,0,0), (1,1,1)), none, none⟩

/-- A trivial instantiation of the abstract codec functions. -/
def trivialCodecs : Codecs :=
  ⟨fun _ => [], fun _ => [], fun _ _ _ => [], fun _ _ _ _ _ => [],
   fun _ => ([], [], []), fun _ => [], fun _ => [], fun _ => [], fun _ => []⟩

/-- A mesh state that is currently lz4-compressed. -/
def c4WitnessState : MeshState :=
  ⟨none, none, none, none, some [[0], [1, 2]], none, none⟩

/-- Two meshes whose normals counts match their own vertex counts. -/
def c6WitnessMeshes : List MeshData :=
  [⟨[(0,0,0)], [(1,0,0)], [], ((0,0,0), (0,0,0)), none, none⟩,
   ⟨[(1,1,1), (2,2,2)], [(1,0,0), (0,1,0)], [], ((1,1,1), (2,2,2)), none, none⟩]

/-- Vertices containing a degenerate (collinear) triangle. -/
def c7WitnessVs : List Vec3 := [(0,0,0), (1,1,1), (2,2,2)]

/-- A vertex array and face list for the chunk-equivalence witness. -/
def c8WitnessVs : List Vec3 := [(0,0,0), (0,0,1), (0,1,0)]

/-- One face, processed in chunks of size 1. -/
def c8WitnessFs : List Face3 := [(0,1,2)]

/-- Trivial instantiation of the abstract format decoders. -/
def trivialDecoders : FormatDecoders :=
  ⟨fun _ => ([], [], []), fun _ => ([], []), fun _ => ([], [], [])⟩

/--
A decoder stand-in for `Mesh.from_buffer`, which distinguishes the two
counterexample buffers just as the real obj/ngmesh decoders distinguish
files with different vertex data.
-/
def c10Decode (b : Blob) : Option MeshData :=
  some ⟨List.replicate b.length (0,0,0), [], [], sentinelBox, none, none⟩

/-- Two tar archives with the same member multiset, stored in opposite order. -/
def c10ArchiveA : List TarMember := [(5, [0]), (5, [0, 0])]

/-- The reversed storage order of `c10ArchiveA`. -/
def c10ArchiveB : List TarMember := [(5, [0, 0]), (5, [0])]

/-- Two distinct-name members, for the amended C10 claim. -/
def c10WitnessA : List TarMember := [(7, [0]), (3, [0, 0])]

/-- A permutation of `c10WitnessA`. -/
def c10WitnessB : List TarMember := [(3, [0, 0]), (7, [0])]

/-! ### Helper lemmas -/

theorem chunkSlicesAux_flatten_map (g : Face3 → Vec3) (cs : ℕ) :
    ∀ (fuel : ℕ) (l : List Face3), l.length ≤ fuel →
      ((chunkSlicesAux cs fuel l).map (fun sl => sl.map g)).flatten = l.map g := by
  intro fuel
  induction fuel with
  | zero =>
      intro l hl
      have : l = [] := List.eq_nil_of_length_eq_zero (Nat.le_zero.mp hl)
      subst this
      simp [chunkSlicesAux]
  | succ fuel ih =>
      intro l hl
      match l with
      | [] => simp [chunkSlicesAux]
      | x :: xs =>
          have hdrop : (xs.drop (cs - 1)).length ≤ fuel := by
            have h1 := List.length_drop (cs - 1) xs
            simp only [List.length_cons] at hl
            omega
          have hrec := ih (xs.drop (cs - 1)) hdrop
          simp only [chunkSlicesAux, List.map_cons, List.flatten_cons, hrec, List.map_cons]
          have htl : List.map g (List.take (cs-1) xs) ++ List.map g (List.drop (cs-1) xs)
              = List.map g xs := by
            rw [← List.map_append, List.take_append_drop]
          rw [List.cons_append, htl]

theorem computeFaceNormalsNumpy_eq_map (s : ℚ → ℚ) (vs : List Vec3)
    (faces : List Face3) (normalize : Bool) :
    computeFaceNormalsNumpy s vs faces normalize
      = faces.map (fun f =>
          if normalize then normalizeRow s (faceNormalRaw vs f) else faceNormalRaw vs f) := by
  cases normalize <;> simp [computeFaceNormalsNumpy, List.map_map, Function.comp]

theorem chunkSlices_cons (cs : ℕ) (x : Face3) (xs : List Face3) :
    chunkSlices cs (x :: xs)
      = (x :: xs.take (cs-1)) :: chunkSlicesAux cs xs.length (xs.drop (cs-1)) := by
  simp [chunkSlices, chunkSlicesAux]

theorem chunked_eq_numpy (s : ℚ → ℚ) (vs : List Vec3) (faces : List Face3)
    (normalize : Bool) (cs : ℕ) (hne : faces ≠ []) (hcs : 1 ≤ cs) :
    computeFaceNormalsNumpyChunked s vs faces normalize cs
      = some (computeFaceNormalsNumpy s vs faces normalize) := by
  have hcs0 : cs ≠ 0 := by omega
  have hmapeq : (chunkSlices cs faces).map (fun sl => computeFaceNormalsNumpy s vs sl normalize)
      = (chunkSlices cs faces).map (fun sl => sl.map (fun f =>
          if normalize then normalizeRow s (faceNormalRaw vs f) else faceNormalRaw vs f)) :=
    List.map_congr_left (fun sl _ => computeFaceNormalsNumpy_eq_map s vs sl normalize)
  have hflat := chunkSlicesAux_flatten_map
    (fun f => if normalize then normalizeRow s (faceNormalRaw vs f) else faceNormalRaw vs f)
    cs faces.length faces le_rfl
  match faces, hne with
  | x :: xs, _ =>
      simp only [computeFaceNormalsNumpyChunked, if_neg hcs0, npConcatenate, hmapeq]
      rw [if_neg (by simp [chunkSlices_cons])]
      rw [computeFaceNormalsNumpy_eq_map]
      exact congrArg some hflat

/-! ### Claim C1 — quantize -/

/--
C1 (counterexample): the claim states that with `bits = 10` a vertex at
the fragment's min corner maps to `(0,0,0)`, under the per-axis formula
`round(clamp((pos − origin) * (2^bits − 1) / shape, 0, 2^bits−1))`.  On
the unit fragment holding its own corners, `Mesh.quantize(10)` maps the
min corner to `(0.5, 0.5, 0.5)`: the code adds `0.5` before clamping and
never rounds, so the min corner does not land on `(0,0,0)`.
-/
theorem c1_quantize_counterexample :
    (quantize 10 c1CounterMesh).map MeshData.vertices
      = some [((1/2 : ℚ), (1/2 : ℚ), (1/2 : ℚ)), ((1023 : ℚ), 1023, 1023)]
    ∧ ((1/2 : ℚ), (1/2 : ℚ), (1/2 : ℚ)) ≠ ((0 : ℚ), (0 : ℚ), (0 : ℚ)) := by
  constructor
  · norm_num [quantize, c1CounterMesh, quantizeVertexXyz, rev3]
  · norm_num

/--
C1 (amended): for every mesh with fragment origin and shape set, at
least one vertex, `bits ≥ 1` and positive fragment shape, `quantize`
remaps each vertex coordinate per axis to
`clamp((pos − origin) * (2^bits − 1) / shape + 1/2, 0, 2^bits − 1)`
(no rounding) and resets the fragment origin to zero and the fragment
shape to `2^bits − 1`; a vertex at the fragment's min corner maps to
`(1/2, 1/2, 1/2)` and a vertex at the max corner to the upper bound
(`(1023,1023,1023)` for `bits = 10`).
-/
theorem c1_quantize_amended (m : MeshData) (sh o : Vec3) (bits : ℕ)
    (hs : m.fragmentShape = some sh) (ho : m.fragmentOrigin = some o)
    (hv : m.vertices ≠ []) (hb : 1 ≤ bits)
    (hpos : 0 < sh.1 ∧ 0 < sh.2.1 ∧ 0 < sh.2.2) :
    quantize bits m = some { m with
        vertices := m.vertices.map
          (fun v => rev3 (quantizeVertexXyz ((2:ℚ)^bits - 1) o sh (rev3 v))),
        fragmentOrigin := some (0, 0, 0),
        fragmentShape := some ((2:ℚ)^bits - 1, (2:ℚ)^bits - 1, (2:ℚ)^bits - 1) }
    ∧ quantizeVertexXyz ((2:ℚ)^bits - 1) o sh o = (1/2, 1/2, 1/2)
    ∧ quantizeVertexXyz ((2:ℚ)^bits - 1) o sh (vadd3 o sh)
        = ((2:ℚ)^bits - 1, (2:ℚ)^bits - 1, (2:ℚ)^bits - 1) := by
  have hub : (1 : ℚ) ≤ (2:ℚ)^bits - 1 := by
    have : (2:ℚ)^1 ≤ (2:ℚ)^bits := by
      apply pow_le_pow_right₀ (by norm_num) hb
    simp at this
    linarith
  refine ⟨?_, ?_, ?_⟩
  · simp [quantize, hs, ho, hv]
  · obtain ⟨h1, h2, h3⟩ := hpos
    simp only [quantizeVertexXyz, sub_self, zero_mul, zero_div, zero_add]
    rw [max_eq_right (by norm_num), min_eq_right (by linarith)]
  · obtain ⟨h1, h2, h3⟩ := hpos
    simp only [quantizeVertexXyz, vadd3]
    have e1 : (o.1 + sh.1 - o.1) * ((2:ℚ)^bits - 1) / sh.1 = (2:ℚ)^bits - 1 := by
      field_simp
    have e2 : (o.2.1 + sh.2.1 - o.2.1) * ((2:ℚ)^bits - 1) / sh.2.1 = (2:ℚ)^bits - 1 := by
      field_simp
    have e3 : (o.2.2 + sh.2.2 - o.2.2) * ((2:ℚ)^bits - 1) / sh.2.2 = (2:ℚ)^bits - 1 := by
      field_simp
    rw [e1, e2, e3]
    rw [max_eq_right (by linarith), min_eq_left (by linarith)]

/-- C1 witness: the amended claim at the concrete unit fragment mesh. -/
theorem c1_quantize_amended_witness :
    quantize 10 c1WitnessMesh = some { c1WitnessMesh with
        vertices := c1WitnessMesh.vertices.map
          (fun v => rev3 (quantizeVertexXyz ((2:ℚ)^10 - 1) (0,0,0) (1,1,1) (rev3 v))),
        fragmentOrigin := some (0, 0, 0),
        fragmentShape := some ((2:ℚ)^10 - 1, (2:ℚ)^10 - 1, (2:ℚ)^10 - 1) }
    ∧ quantizeVertexXyz ((2:ℚ)^10 - 1) (0,0,0) (1,1,1) (0,0,0) = (1/2, 1/2, 1/2)
    ∧ quantizeVertexXyz ((2:ℚ)^10 - 1) (0,0,0) (1,1,1) (vadd3 (0,0,0) (1,1,1))
        = ((2:ℚ)^10 - 1, (2:ℚ)^10 - 1, (2:ℚ)^10 - 1) :=
  c1_quantize_amended c1WitnessMesh (1,1,1) (0,0,0) 10 rfl rfl
    (by simp [c1WitnessMesh]) (by norm_num) (by norm_num)

/-! ### Claim C7 — degenerate faces get an exact zero normal -/

/--
C7 (confirmed): for every vertex array and face array and for both
`normalize` settings, `compute_face_normals_numpy` assigns a face whose
cross product is exactly zero the exact normal `(0,0,0)`: the division
by the magnitude is guarded by the nonzero check, so the zero row is
left untouched (`s` is any square root with `s 0 = 0`).
-/
theorem c7_degenerate_zero_normal (s : ℚ → ℚ) (hs : s 0 = 0) (vs : List Vec3)
    (faces : List Face3) (normalize : Bool) (i : ℕ) (f : Face3)
    (hf : faces[i]? = some f) (hdeg : faceNormalRaw vs f = (0, 0, 0)) :
    (computeFaceNormalsNumpy s vs faces normalize)[i]? = some (0, 0, 0) := by
  have hmag : magSq (0 : Vec3) = 0 := by
    simp [magSq]
  have hrow : normalizeRow s (0 : Vec3) = 0 := by
    simp [normalizeRow, hmag, hs]
  rw [computeFaceNormalsNumpy_eq_map]
  rw [List.getElem?_map, hf]
  cases normalize <;> simp [hdeg, hrow]

/-- C7 witness: a concrete collinear triangle, with normalization on. -/
theorem c7_degenerate_zero_normal_witness :
    (computeFaceNormalsNumpy (fun _ => 0) c7WitnessVs [(0,1,2)] true)[0]?
      = some (0, 0, 0) :=
  c7_degenerate_zero_normal (fun _ => 0) rfl c7WitnessVs [(0,1,2)] true 0 (0,1,2)
    rfl (by norm_num [faceNormalRaw, cross3, vsub3, getV, c7WitnessVs])

/-! ### Claim C8 — chunked face normals vs. one-pass face normals -/

/--
C8 (code bug): `compute_face_normals_numpy_chunked` is documented as
"Same as compute_face_normals_numpy(), but internally computes the
result in chunks", and the claim asserts bit-identical results
including for an empty face array.  On an empty face array the chunked
loop body never runs, so `np.concatenate([])` raises `ValueError`,
while the one-pass version returns an empty `(0,3)` array; for every
nonempty face array and chunk size ≥ 1 the two agree exactly.
-/
theorem c8_chunked_divergence :
    (∀ (s : ℚ → ℚ) (vs : List Vec3) (normalize : Bool),
        computeFaceNormalsNumpyChunked s vs [] normalize 50000 = none)
    ∧ (∀ (s : ℚ → ℚ) (vs : List Vec3) (normalize : Bool),
        computeFaceNormalsNumpy s vs [] normalize = [])
    ∧ (∀ (s : ℚ → ℚ) (vs : List Vec3) (faces : List Face3) (normalize : Bool)
        (cs : ℕ), faces ≠ [] → 1 ≤ cs →
        computeFaceNormalsNumpyChunked s vs faces normalize cs
          = some (computeFaceNormalsNumpy s vs faces normalize)) := by
  refine ⟨?_, ?_, ?_⟩
  · intro s vs normalize
    simp [computeFaceNormalsNumpyChunked, chunkSlices, chunkSlicesAux, npConcatenate]
  · intro s vs normalize
    cases normalize <;> simp [computeFaceNormalsNumpy]
  · intro s vs faces normalize cs hne hcs
    exact chunked_eq_numpy s vs faces normalize cs hne hcs

/-- C8 witness: the nonempty-case agreement at a concrete input. -/
theorem c8_chunked_divergence_witness :
    computeFaceNormalsNumpyChunked (fun _ => 0) c8WitnessVs c8WitnessFs false 1
      = some (computeFaceNormalsNumpy (fun _ => 0) c8WitnessVs c8WitnessFs false) :=
  c8_chunked_divergence.2.2 (fun _ => 0) c8WitnessVs c8WitnessFs false 1
    (by simp [c8WitnessFs]) (by norm_num)

/-! ### Helper lemmas for stitching and normal recomputation -/

theorem firstIdx_of_nodup (vs : List Vec3) (h : vs.Nodup) :
    ∀ (i : ℕ) (hi : i < vs.length), firstIdx vs[i] vs = i := by
  induction vs with
  | nil => intro i hi; simp at hi
  | cons w ws ih =>
      intro i hi
      match i with
      | 0 => simp [firstIdx]
      | k + 1 =>
          have hk : k < ws.length := by
            simp only [List.length_cons] at hi
            omega
          have hne : w ≠ (w :: ws)[k + 1] := by
            have hmem : ws[k] ∈ ws := List.getElem_mem hk
            have hw : w ∉ ws := (List.nodup_cons.mp h).1
            simp only [List.getElem_cons_succ]
            intro hcontra
            exact hw (hcontra ▸ hmem)
          rw [firstIdx, if_neg (by exact hne)]
          have := ih (List.nodup_cons.mp h).2 k hk
          simp only [List.getElem_cons_succ]
          rw [this]

theorem firstOccurrences_eq_nil (vs : List Vec3) (h : vs.Nodup) :
    firstOccurrences vs = [] := by
  rw [firstOccurrences, List.filterMap_eq_nil_iff]
  intro i hi
  rw [List.mem_range] at hi
  have hg : getV vs i = vs[i] := List.getD_eq_getElem vs (0, 0, 0) hi
  have hidx : firstIdx (getV vs i) vs = i := by
    rw [hg]
    exact firstIdx_of_nodup vs h i hi
  simp [hidx]

theorem foldl_set_length (l : List (ℕ × Vec3)) :
    ∀ base : List Vec3,
      (l.foldl (fun acc iv => acc.set iv.1 (vadd3 (getV acc iv.1) iv.2)) base).length
        = base.length := by
  induction l with
  | nil => intro base; rfl
  | cons p t ih =>
      intro base
      rw [List.foldl_cons, ih, List.length_set]

theorem length_addAt (base : List Vec3) (idx : List ℕ) (vals : List Vec3) :
    (addAt base idx vals).length = base.length :=
  foldl_set_length (idx.zip vals) base

theorem length_computeVertexNormalsNumpy (s : ℚ → ℚ) (vs : List Vec3)
    (faces : List Face3) (fns : List Vec3) :
    (computeVertexNormalsNumpy s vs faces fns).length = vs.length := by
  simp [computeVertexNormalsNumpy, length_addAt]

theorem computeFaceNormals_of_ne_nil (s : ℚ → ℚ) (vs : List Vec3)
    (faces : List Face3) (hf : faces ≠ []) :
    computeFaceNormals s vs faces false = some (faces.map (faceNormalRaw vs)) := by
  rw [computeFaceNormals, chunked_eq_numpy s vs faces false 50000 hf (by norm_num)]
  rw [computeFaceNormalsNumpy_eq_map]
  simp

theorem recomputeNormals_unfold (s : ℚ → ℚ) (m : MeshData) (hf : m.faces ≠ []) :
    recomputeNormals s true m =
      (if (m.faces.filter (fun f => decide (faceNormalRaw m.vertices f ≠ (0, 0, 0)))).isEmpty then
        some { m with vertices := [], normals := [], faces := [] }
      else
        some { m with
          faces := m.faces.filter (fun f => decide (faceNormalRaw m.vertices f ≠ (0, 0, 0))),
          normals := computeVertexNormalsNumpy s m.vertices
            (m.faces.filter (fun f => decide (faceNormalRaw m.vertices f ≠ (0, 0, 0))))
            ((m.faces.filter (fun f => decide (faceNormalRaw m.vertices f ≠ (0, 0, 0)))).map
              (faceNormalRaw m.vertices)) }) := by
  have hcf := computeFaceNormals_of_ne_nil s m.vertices m.faces hf
  unfold recomputeNormals
  rw [hcf]
  rfl

theorem recomputeNormals_spec (s : ℚ → ℚ) (m : MeshData) (hf : m.faces ≠ []) :
    (recomputeNormals s true m).isSome = true ∧
    ∀ m2, recomputeNormals s true m = some m2 →
      m2.normals.length = m2.vertices.length ∧
      ∀ f ∈ m2.faces, faceNormalRaw m2.vertices f ≠ (0, 0, 0) := by
  rw [recomputeNormals_unfold s m hf]
  by_cases hemp : (m.faces.filter
      (fun f => decide (faceNormalRaw m.vertices f ≠ (0, 0, 0)))).isEmpty
  · rw [if_pos hemp]
    refine ⟨rfl, ?_⟩
    intro m2 hm2
    rw [Option.some_inj] at hm2
    subst hm2
    simp
  · rw [if_neg hemp]
    refine ⟨rfl, ?_⟩
    intro m2 hm2
    rw [Option.some_inj] at hm2
    subst hm2
    constructor
    · exact length_computeVertexNormalsNumpy s m.vertices _ _
    · intro f hfmem
      have := List.mem_filter.mp hfmem
      simpa using this.2

/-! ### Claim C2 — stitching a duplicate-free mesh -/

/--
C2 (counterexample): the claim states that a mesh with no two
bit-identical vertices is left with its vertex and face arrays
unmodified.  On a duplicate-free mesh that carries normals and a
degenerate face, `stitch_adjacent_faces` still returns `False` but
recomputes the normals with degenerate-face removal, which drops the
face and then truncates the vertex array to empty.
-/
theorem c2_stitch_nodup_counterexample :
    stitchAdjacentFaces (fun _ => 0) true true c2CounterMesh
      = some ({ c2CounterMesh with vertices := [], normals := [], faces := [] }, false)
    ∧ c2CounterMesh.vertices ≠ [] := by
  constructor
  · have hp : firstOccurrences c2CounterMesh.vertices = [] := by decide
    have hdeg : faceNormalRaw c2CounterMesh.vertices (0, 1, 2) = (0, 0, 0) := by
      norm_num [faceNormalRaw, cross3, vsub3, getV, c2CounterMesh]
    have hfilter : c2CounterMesh.faces.filter
        (fun f => decide (faceNormalRaw c2CounterMesh.vertices f ≠ (0, 0, 0))) = [] := by
      show List.filter _ [(0, 1, 2)] = []
      simp [List.filter, hdeg]
    have hrec : recomputeNormals (fun _ => 0) true c2CounterMesh
        = some { c2CounterMesh with vertices := [], normals := [], faces := [] } := by
      rw [recomputeNormals_unfold (fun _ => 0) c2CounterMesh (by decide), hfilter]
      rfl
    have h1 : stitchAdjacentFaces (fun _ => 0) true true c2CounterMesh
        = (recomputeNormals (fun _ => 0) true c2CounterMesh).map (fun m2 => (m2, false)) := by
      unfold stitchAdjacentFaces
      rw [hp]
      rfl
    rw [h1, hrec]
    rfl
  · decide

/--
C2 (amended): for every mesh whose vertex array contains no two
bit-identical vertex positions and which carries no normals,
`stitch_adjacent_faces` returns `False` (no stitching was needed) and
leaves the mesh — in particular its vertex and face arrays —
unmodified.  (When normals are present the code additionally recomputes
them, which can remove degenerate faces, as the counterexample shows.)
-/
theorem c2_stitch_nodup_amended (s : ℚ → ℚ) (du dd : Bool) (m : MeshData)
    (hnd : m.vertices.Nodup) (hn : m.normals = []) :
    stitchAdjacentFaces s du dd m = some (m, false) := by
  have hp := firstOccurrences_eq_nil m.vertices hnd
  simp [stitchAdjacentFaces, hp, hn]

/-- C2 witness: the amended claim at a concrete duplicate-free mesh. -/
theorem c2_stitch_nodup_amended_witness :
    stitchAdjacentFaces (fun _ => 0) true true c2WitnessMesh
      = some (c2WitnessMesh, false) :=
  c2_stitch_nodup_amended (fun _ => 0) true true c2WitnessMesh (by decide) rfl

/-! ### Claim C3 — laplacian_smooth recomputes normals -/

/--
C3 (counterexample): the claim states that `laplacian_smooth(N)` always
finishes by recomputing normals with degenerate-face removal, including
`N = 0`.  On a mesh that already carries normals and contains a
degenerate face, `laplacian_smooth(0)` returns the mesh unchanged: a
face whose face normal is exactly zero survives the call.
-/
theorem c3_smooth_counterexample :
    laplacianSmooth (fun _ => 0) 0 c3CounterMesh = some c3CounterMesh
    ∧ (0, 1, 2) ∈ c3CounterMesh.faces
    ∧ faceNormalRaw c3CounterMesh.vertices (0, 1, 2) = (0, 0, 0) := by
  refine ⟨?_, by decide, ?_⟩
  · simp [laplacianSmooth, c3CounterMesh]
  · norm_num [faceNormalRaw, cross3, vsub3, getV, c3CounterMesh]

/--
C3 (amended): for every mesh with at least one face and every iteration
count `N` with `N ≥ 1` — or `N = 0` when the mesh has no normals yet —
`laplacian_smooth(N)` finishes by recomputing normals with
degenerate-face removal, so afterwards the mesh has exactly one normal
per vertex and contains no face whose face normal is exactly zero.
(For `N = 0` with normals present the call is a pure no-op, and for a
mesh with no faces normal recomputation raises, see C8.)
-/
theorem c3_smooth_recompute_amended (s : ℚ → ℚ) (N : ℕ) (m : MeshData)
    (hf : m.faces ≠ []) (hN : 1 ≤ N ∨ m.normals = []) :
    (laplacianSmooth s N m).isSome = true ∧
    ∀ m2, laplacianSmooth s N m = some m2 →
      m2.normals.length = m2.vertices.length ∧
      ∀ f ∈ m2.faces, faceNormalRaw m2.vertices f ≠ (0, 0, 0) := by
  cases N with
  | zero =>
      have hn : m.normals = [] := by
        rcases hN with h | h
        · exact absurd h (by omega)
        · exact h
      have heq : laplacianSmooth s 0 m = recomputeNormals s true m := by
        simp [laplacianSmooth, hn]
      rw [heq]
      exact recomputeNormals_spec s m hf
  | succ k =>
      have heq : laplacianSmooth s (k + 1) m
          = recomputeNormals s true
              { m with
                normals := ([] : List Vec3),
                vertices := smoothedVertices m.faces (k + 1) m.vertices } := by
        simp [laplacianSmooth]
      rw [heq]
      exact recomputeNormals_spec s _ (by simpa using hf)

/-- C3 witness: the amended claim at a concrete one-triangle mesh. -/
theorem c3_smooth_recompute_amended_witness :
    (laplacianSmooth (fun _ => 1) 0 c3WitnessMesh).isSome = true
    ∧ c3WitnessResult.normals.length = c3WitnessResult.vertices.length
    ∧ faceNormalRaw c3WitnessResult.vertices (0, 1, 2) ≠ (0, 0, 0) := by
  have hfn : faceNormalRaw c3WitnessMesh.vertices (0, 1, 2) = (1, 0, 0) := by
    norm_num [faceNormalRaw, cross3, vsub3, getV, c3WitnessMesh]
  have hfilter : c3WitnessMesh.faces.filter
      (fun f => decide (faceNormalRaw c3WitnessMesh.vertices f ≠ (0, 0, 0))) = [(0, 1, 2)] := by
    show List.filter _ [(0, 1, 2)] = _
    simp [List.filter, hfn]
  have hcvnn : computeVertexNormalsNumpy (fun _ => 1) c3WitnessMesh.vertices
      [(0, 1, 2)] [(1, 0, 0)] = [(1, 0, 0), (1, 0, 0), (1, 0, 0)] := by
    norm_num [computeVertexNormalsNumpy, addAt, getV, vadd3, normalizeRow, magSq,
      vdiv3, c3WitnessMesh, List.set, List.replicate]
  have heval : laplacianSmooth (fun _ => 1) 0 c3WitnessMesh = some c3WitnessResult := by
    have h0 : laplacianSmooth (fun _ => 1) 0 c3WitnessMesh
        = recomputeNormals (fun _ => 1) true c3WitnessMesh := rfl
    rw [h0, recomputeNormals_unfold (fun _ => 1) c3WitnessMesh (by decide), hfilter]
    rw [if_neg (by decide)]
    rw [show ([(0, 1, 2)] : List Face3).map (faceNormalRaw c3WitnessMesh.vertices)
        = [(1, 0, 0)] from by simp [hfn]]
    rw [hcvnn]
    rfl
  have h := c3_smooth_recompute_amended (fun _ => 1) 0 c3WitnessMesh (by decide) (Or.inr rfl)
  have h2 := h.2 c3WitnessResult heval
  exact ⟨h.1, h2.1, h2.2 (0, 1, 2) (by decide)⟩

/-! ### Claim C4 — compress is idempotent while compressed -/

/--
C4 (confirmed): for every codec choice and every mesh state that is
already compressed in the representation matching `method` (lz4 items
held for `lz4`; a draco blob held for `draco` or `custom_draco`),
`Mesh.compress(method)` returns the cached encoded size (total length
of the held lz4 items, resp. length of the held draco blob) and leaves
the state — in particular the stored compressed representation —
completely unchanged: no re-encode happens.
-/
theorem c4_compress_idempotent (C : Codecs) (m : MeshState) (method : CompressMethod)
    (h : (method = .lz4 ∧ m.lz4Items.isSome = true)
      ∨ ((method = .draco ∨ method = .customDraco) ∧ m.dracoBytes.isSome = true)) :
    compressMesh C method m = (cachedCompressedSize method m, m) := by
  rcases h with ⟨hm, hsome⟩ | ⟨hm, hsome⟩
  · subst hm
    rcases Option.isSome_iff_exists.mp hsome with ⟨items, hitems⟩
    simp [compressMesh, compressAsLz4, cachedCompressedSize, hitems]
  · rcases Option.isSome_iff_exists.mp hsome with ⟨b, hb⟩
    rcases hm with hm | hm <;> subst hm
    · simp [compressMesh, compressAsDraco, cachedCompressedSize, hb]
    · simp [compressMesh, compressAsCustomDraco, cachedCompressedSize, hb]

/-- C4 witness: a concrete lz4-compressed state with trivial codecs. -/
theorem c4_compress_idempotent_witness :
    compressMesh trivialCodecs CompressMethod.lz4 c4WitnessState
      = (cachedCompressedSize CompressMethod.lz4 c4WitnessState, c4WitnessState) :=
  c4_compress_idempotent trivialCodecs c4WitnessState CompressMethod.lz4
    (Or.inl ⟨rfl, rfl⟩)

/-! ### Claim C6 — the inconsistent-normals invariant of concatenation -/

theorem flattenNormals_mkMesh_cond (ms : List MeshData)
    (hv : verifyConcatenateInputs ms = true) :
    ((ms.map (fun m => m.normals)).flatten).length
        = ((ms.map (fun m => m.vertices)).flatten).length
      ∨ ((ms.map (fun m => m.normals)).flatten).length = 0 := by
  rw [verifyConcatenateInputs, Bool.or_eq_true, List.all_eq_true, List.all_eq_true] at hv
  rcases hv with h | h
  · right
    rw [List.length_flatten, List.map_map]
    apply List.sum_eq_zero
    intro x hx
    rw [List.mem_map] at hx
    obtain ⟨m, hm, hxm⟩ := hx
    have hz := h m hm
    rw [decide_eq_true_eq] at hz
    rw [← hxm]
    exact hz
  · left
    rw [List.length_flatten, List.length_flatten, List.map_map, List.map_map]
    apply congrArg List.sum
    apply List.map_congr_left
    intro m hm
    have he := h m hm
    rw [decide_eq_true_eq] at he
    exact he.symm

theorem mkMesh_some_of (vs : List Vec3) (fs : List Face3) (ns : List Vec3)
    (box : Option (Vec3 × Vec3)) (fsh fo : Option Vec3)
    (h : ns.length = vs.length ∨ ns.length = 0) :
    mkMesh vs fs (some ns) box fsh fo
      = some ⟨vs, ns, fs, box.getD (defaultBox vs), fsh, fo⟩ := by
  show (if ns.length = vs.length ∨ ns.length = 0 then
      some (⟨vs, ns, fs, box.getD (defaultBox vs), fsh, fo⟩ : MeshData) else none)
    = some ⟨vs, ns, fs, box.getD (defaultBox vs), fsh, fo⟩
  rw [if_pos h]

theorem concatenateMeshes_of_verify (ms : List MeshData) (hne : ms ≠ [])
    (hv : verifyConcatenateInputs ms = true) :
    (concatenateMeshes true ms).isOk = true := by
  have hcond := flattenNormals_mkMesh_cond ms hv
  have hni : ¬ ((true : Bool) ∧ ¬ (verifyConcatenateInputs ms = true)) := by
    simp [hv]
  rw [concatenateMeshes, if_neg hni, if_neg (by simpa [List.isEmpty_eq_false] using hne)]
  show (match mkMesh ((ms.map (fun m : MeshData => m.vertices)).flatten) (concatFacesAux 0 ms)
      (some ((ms.map (fun m : MeshData => m.normals)).flatten))
      (some (boxUnion (ms.map (fun m : MeshData => m.box)))) none none with
    | some mm => Except.ok mm
    | none => Except.error ConcatError.constructorAssert).isOk = true
  rw [mkMesh_some_of _ _ _ _ _ _ hcond]
  rfl

theorem concatenateMeshes_of_not_verify (ms : List MeshData)
    (hv : verifyConcatenateInputs ms = false) :
    concatenateMeshes true ms = .error .inconsistentNormals := by
  rw [concatenateMeshes, if_pos (by simp [hv])]

/--
C6 (counterexample): the claim quantifies over every list of input
meshes and asserts that concatenation succeeds without error whenever
no input has normals.  For the empty list — which vacuously has no
normals — `concatenate_meshes` raises `ValueError` out of
`np.concatenate([])` instead of succeeding.
-/
theorem c6_concat_error_counterexample :
    concatenateMeshes true ([] : List MeshData) = .error .emptyConcatenate := rfl

/--
C6 (amended): for every nonempty list of input meshes,
`concatenate_meshes` with `keep_normals=True` raises the
inconsistent-normals error if and only if some input mesh has a nonzero
normals count while some input mesh's normals count differs from its
own vertex count; when either no input has normals or every input's
normals count equals its own vertex count, concatenation succeeds
without error.  (The empty list instead raises `ValueError` from
`np.concatenate([])`, see the counterexample.)
-/
theorem c6_concat_error_amended (ms : List MeshData) (hne : ms ≠ []) :
    (concatenateMeshes true ms = .error .inconsistentNormals ↔
      (∃ m ∈ ms, m.normals.length ≠ 0) ∧ (∃ m ∈ ms, m.normals.length ≠ m.vertices.length)) ∧
    (((∀ m ∈ ms, m.normals.length = 0) ∨ (∀ m ∈ ms, m.normals.length = m.vertices.length)) →
      (concatenateMeshes true ms).isOk = true) := by
  have hver : verifyConcatenateInputs ms = true ↔
      ((∀ m ∈ ms, m.normals.length = 0) ∨ (∀ m ∈ ms, m.normals.length = m.vertices.length)) := by
    rw [verifyConcatenateInputs, Bool.or_eq_true, List.all_eq_true, List.all_eq_true]
    constructor
    · rintro (h | h)
      · exact Or.inl (fun m hm => by simpa using h m hm)
      · exact Or.inr (fun m hm => by have := h m hm; rw [decide_eq_true_eq] at this; omega)
    · rintro (h | h)
      · exact Or.inl (fun m hm => by simpa using h m hm)
      · exact Or.inr (fun m hm => by rw [decide_eq_true_eq]; have := h m hm; omega)
  by_cases hv : verifyConcatenateInputs ms = true
  · constructor
    · constructor
      · intro herr
        have hok := concatenateMeshes_of_verify ms hne hv
        rw [herr] at hok
        simp [Except.isOk, Except.toBool] at hok
      · rintro ⟨⟨m1, hm1, hz1⟩, ⟨m2, hm2, hz2⟩⟩
        rcases hver.mp hv with h | h
        · exact absurd (h m1 hm1) hz1
        · exact absurd (h m2 hm2) hz2
    · intro _
      exact concatenateMeshes_of_verify ms hne hv
  · have hvf : verifyConcatenateInputs ms = false := by
      simpa using hv
    constructor
    · constructor
      · intro _
        have h1 : ¬ ((∀ m ∈ ms, m.normals.length = 0)
            ∨ (∀ m ∈ ms, m.normals.length = m.vertices.length)) := fun hc => hv (hver.mpr hc)
        rw [not_or] at h1
        obtain ⟨ha, hb⟩ := h1
        push_neg at ha hb
        exact ⟨ha, hb⟩
      · intro _
        exact concatenateMeshes_of_not_verify ms hvf
    · intro hcond
      exact absurd (hver.mpr hcond) hv

/-- C6 witness: two meshes whose normals match their own vertex counts. -/
theorem c6_concat_error_amended_witness :
    (concatenateMeshes true c6WitnessMeshes).isOk = true :=
  (c6_concat_error_amended c6WitnessMeshes (by decide)).2 (Or.inr (by decide))

/-! ### Claim C9 — zero-byte input decodes as an empty mesh -/

/--
C9 (confirmed): for every decoder choice, every supported mesh format
and every file extension, decoding zero-byte input (`Mesh.from_buffer`
on an empty bytes object, `Mesh.from_file` on a zero-size file) returns
a well-formed empty mesh — 0 vertices, 0 faces, 0 normals, sentinel
bounding box — and does not raise: the zero-size shortcut fires before
any format decoder runs.
-/
theorem c9_zero_byte_empty (P : FormatDecoders) :
    (∀ fmt : MeshFormat, fromBuffer P [] fmt = some emptyMeshData)
    ∧ (∀ ext : FileExt, fromFile P [] ext = some emptyMeshData)
    ∧ emptyMeshData.vertices.length = 0
    ∧ emptyMeshData.faces.length = 0
    ∧ emptyMeshData.normals.length = 0 :=
  ⟨fun _ => rfl, fun _ => rfl, rfl, rfl, rfl⟩

/-! ### Claim C10 — tar member order independence -/

theorem insertMember_perm (x : TarMember) (l : List TarMember) :
    (insertMember x l).Perm (x :: l) := by
  induction l with
  | nil => simp [insertMember]
  | cons y ys ih =>
      rw [insertMember]
      by_cases h : x.1 < y.1
      · rw [if_pos h]
      · rw [if_neg h]
        exact (ih.cons y).trans (List.Perm.swap x y ys)

theorem sortMembers_perm (l : List TarMember) : (sortMembers l).Perm l := by
  have key : ∀ (t : List TarMember) (acc : List TarMember),
      (t.foldl (fun a x => insertMember x a) acc).Perm (acc ++ t) := by
    intro t
    induction t with
    | nil => intro acc; simp
    | cons x xs ih =>
        intro acc
        rw [List.foldl_cons]
        refine (ih (insertMember x acc)).trans ?_
        refine (List.Perm.append_right xs (insertMember_perm x acc)).trans ?_
        exact List.perm_middle.symm
  simpa using key l []

theorem mem_insertMember {z x : TarMember} {l : List TarMember} :
    z ∈ insertMember x l ↔ z = x ∨ z ∈ l := by
  rw [(insertMember_perm x l).mem_iff]
  simp

theorem insertMember_pairwise (x : TarMember) (l : List TarMember)
    (h : l.Pairwise (fun a b : TarMember => a.1 ≤ b.1)) :
    (insertMember x l).Pairwise (fun a b : TarMember => a.1 ≤ b.1) := by
  induction l with
  | nil => simp [insertMember]
  | cons y ys ih =>
      rw [insertMember]
      rw [List.pairwise_cons] at h
      by_cases hxy : x.1 < y.1
      · rw [if_pos hxy, List.pairwise_cons]
        constructor
        · intro z hz
          rcases List.mem_cons.mp hz with rfl | hz2
          · omega
          · have := h.1 z hz2
            omega
        · exact List.pairwise_cons.mpr h
      · rw [if_neg hxy, List.pairwise_cons]
        constructor
        · intro z hz
          rcases mem_insertMember.mp hz with rfl | hz2
          · omega
          · exact h.1 z hz2
        · exact ih h.2

theorem sortMembers_pairwise (l : List TarMember) :
    (sortMembers l).Pairwise (fun a b : TarMember => a.1 ≤ b.1) := by
  have key : ∀ (t : List TarMember) (acc : List TarMember),
      acc.Pairwise (fun a b : TarMember => a.1 ≤ b.1) →
      (t.foldl (fun a x => insertMember x a) acc).Pairwise
        (fun a b : TarMember => a.1 ≤ b.1) := by
    intro t
    induction t with
    | nil => intro acc hacc; simpa using hacc
    | cons x xs ih =>
        intro acc hacc
        rw [List.foldl_cons]
        exact ih (insertMember x acc) (insertMember_pairwise x acc hacc)
  exact key l [] (by simp)

theorem sorted_nodupkeys_unique :
    ∀ (l1 l2 : List TarMember), l1.Perm l2 →
      l1.Pairwise (fun a b : TarMember => a.1 ≤ b.1) →
      l2.Pairwise (fun a b : TarMember => a.1 ≤ b.1) →
      (l1.map Prod.fst).Nodup → l1 = l2 := by
  intro l1
  induction l1 with
  | nil =>
      intro l2 hp _ _ _
      exact hp.nil_eq
  | cons x t1 ih =>
      intro l2 hp h1 h2 hnd
      match l2 with
      | [] => exact absurd hp.symm.nil_eq (by simp)
      | y :: t2 =>
          have hy : y ∈ x :: t1 := hp.symm.subset (List.mem_cons_self y t2)
          have hx : x ∈ y :: t2 := hp.subset (List.mem_cons_self x t1)
          have hxy : x = y := by
            rcases List.mem_cons.mp hy with h | hy2
            · exact h.symm
            rcases List.mem_cons.mp hx with h | hx2
            · exact h
            have e1 : x.1 ≤ y.1 := (List.pairwise_cons.mp h1).1 y hy2
            have e2 : y.1 ≤ x.1 := (List.pairwise_cons.mp h2).1 x hx2
            have ekey : x.1 = y.1 := by omega
            have hxnot : x.1 ∉ t1.map Prod.fst := (List.nodup_cons.mp hnd).1
            have : x.1 ∈ t1.map Prod.fst := by
              rw [ekey]
              exact List.mem_map_of_mem Prod.fst hy2
            exact absurd this hxnot
          subst hxy
          have htails := hp.cons_inv
          have := ih t2 htails (List.pairwise_cons.mp h1).2 (List.pairwise_cons.mp h2).2
            (List.nodup_cons.mp hnd).2
          rw [this]

/--
C10 (counterexample): the claim quantifies over any two tar archives
with identical (name, contents) member multisets.  Two archives holding
the same two members under one repeated name, stored in opposite
orders, decode to different name-to-mesh dicts: the stable sort by name
preserves each archive's internal order of the equal names, and the
later member wins the dict slot.
-/
theorem c10_tar_order_counterexample :
    c10ArchiveA.Perm c10ArchiveB
    ∧ fromTarfile (fun _ => true) c10Decode c10ArchiveA
        ≠ fromTarfile (fun _ => true) c10Decode c10ArchiveB := by
  constructor
  · decide
  · decide

/--
C10 (amended): for any two tar archives whose members have identical
(name, contents) pairs — with pairwise-distinct member names — stored
in different orders, `Mesh.from_tarfile` produces identical results,
both as a name-to-mesh mapping and after concatenation: members are
sorted by name before loading, and with distinct names that sort is
order-independent.
-/
theorem c10_tar_order_amended (isMesh : ℕ → Bool) (decode : Blob → Option MeshData)
    (A B : List TarMember) (hperm : A.Perm B) (hnd : (A.map Prod.fst).Nodup) :
    fromTarfile isMesh decode A = fromTarfile isMesh decode B
    ∧ ∀ kn, fromTarfileConcat isMesh decode kn A = fromTarfileConcat isMesh decode kn B := by
  have hsorted : sortMembers A = sortMembers B := by
    apply sorted_nodupkeys_unique
    · exact (sortMembers_perm A).trans (hperm.trans (sortMembers_perm B).symm)
    · exact sortMembers_pairwise A
    · exact sortMembers_pairwise B
    · have hmap := (sortMembers_perm A).map Prod.fst
      exact (hmap.nodup_iff).mpr hnd
  have h1 : fromTarfile isMesh decode A = fromTarfile isMesh decode B := by
    unfold fromTarfile
    rw [hsorted]
  exact ⟨h1, fun kn => by unfold fromTarfileConcat; rw [h1]⟩

/-- C10 witness: two concrete distinct-name archives in opposite order. -/
theorem c10_tar_order_amended_witness :
    fromTarfile (fun _ => true) c10Decode c10WitnessA
      = fromTarfile (fun _ => true) c10Decode c10WitnessB :=
  (c10_tar_order_amended (fun _ => true) c10Decode c10WitnessA c10WitnessB
    (by decide) (by decide)).1

/-! ### Claim C5 — the Z-order comparator

A toolbox of `Nat.size` / `Nat.testBit` facts, followed by a proof that
`_cmp_zorder` compares two coordinates exactly like their Morton codes,
which yields the strict-total-order properties. -/

theorem testBit_of_ge_of_lt {n i : ℕ} (h1 : 2 ^ i ≤ n) (h2 : n < 2 ^ (i + 1)) :
    n.testBit i = true := by
  rw [Nat.testBit_to_div_mod]
  have hq : n / 2 ^ i = 1 := by
    apply Nat.div_eq_of_lt_le
    · simpa using h1
    · rw [pow_succ] at h2
      omega
  rw [hq]
  rfl

theorem two_pow_size_pred_le {n : ℕ} (h : n ≠ 0) : 2 ^ (n.size - 1) ≤ n := by
  apply Nat.lt_size.mp
  have : 0 < n.size := by
    rcases Nat.eq_zero_or_pos n.size with h0 | h0
    · exact absurd (Nat.size_eq_zero.mp h0) h
    · exact h0
  omega

theorem testBit_size_pred {n : ℕ} (h : n ≠ 0) : n.testBit (n.size - 1) = true := by
  apply testBit_of_ge_of_lt (two_pow_size_pred_le h)
  have h1 := Nat.lt_size_self n
  have h2 : 0 < n.size := by
    rcases Nat.eq_zero_or_pos n.size with h0 | h0
    · exact absurd (Nat.size_eq_zero.mp h0) h
    · exact h0
  have e : n.size - 1 + 1 = n.size := by omega
  rw [e]
  exact h1

theorem testBit_eq_false_of_size_le {n j : ℕ} (h : n.size ≤ j) : n.testBit j = false := by
  apply Nat.testBit_lt_two_pow
  exact lt_of_lt_of_le (Nat.lt_size_self n) (Nat.pow_le_pow_right (by norm_num) h)

theorem size_le_of_high_false {n i : ℕ} (h : ∀ j, i ≤ j → n.testBit j = false) :
    n.size ≤ i := by
  by_contra hc
  push_neg at hc
  have hn0 : n ≠ 0 := by
    intro h0
    subst h0
    simp [Nat.size_zero] at hc
  have htop := testBit_size_pred hn0
  have hge : i ≤ n.size - 1 := by omega
  rw [h _ hge] at htop
  exact Bool.false_ne_true htop

theorem size_eq_succ_of {n i : ℕ} (hbit : n.testBit i = true)
    (hhigh : ∀ j, i < j → n.testBit j = false) : n.size = i + 1 := by
  have h1 : n.size ≤ i + 1 := size_le_of_high_false (fun j hj => hhigh j (by omega))
  have h2 : i < n.size := Nat.lt_size.mpr (Nat.testBit_implies_ge hbit)
  omega

theorem lessMsb_iff (x y : ℕ) : lessMsb x y = true ↔ x.size < y.size := by
  rw [lessMsb, Bool.and_eq_true, decide_eq_true_eq, decide_eq_true_eq]
  constructor
  · rintro ⟨h1, h2⟩
    by_contra hc
    push_neg at hc
    have hxy : x.size ≤ y.size := Nat.size_le_size (le_of_lt h1)
    have hs : x.size = y.size := le_antisymm hxy hc
    have hy0 : y ≠ 0 := by omega
    have hx0 : x ≠ 0 := by
      intro h0
      subst h0
      rw [Nat.size_zero] at hs
      exact hy0 (Nat.size_eq_zero.mp hs.symm)
    have hbits : ∀ j, x.size - 1 ≤ j → (x ^^^ y).testBit j = false := by
      intro j hj
      rw [Nat.testBit_xor]
      rcases Nat.lt_or_ge j x.size with hlt | hge
      · have hj2 : j = x.size - 1 := by omega
        subst hj2
        rw [testBit_size_pred hx0]
        rw [show y.testBit (x.size - 1) = true from by
          rw [hs]
          exact testBit_size_pred hy0]
        rfl
      · rw [testBit_eq_false_of_size_le hge,
            testBit_eq_false_of_size_le (by omega : y.size ≤ j)]
        rfl
    have hszxor : (x ^^^ y).size ≤ x.size - 1 := size_le_of_high_false hbits
    have hlt2 : x ^^^ y < 2 ^ (x.size - 1) :=
      lt_of_lt_of_le (Nat.lt_size_self _) (Nat.pow_le_pow_right (by norm_num) hszxor)
    have hge2 : 2 ^ (x.size - 1) ≤ x := two_pow_size_pred_le hx0
    omega
  · intro h
    have hy0 : y ≠ 0 := by
      intro h0
      subst h0
      simp [Nat.size_zero] at h
    have hx2 : x < 2 ^ (y.size - 1) :=
      lt_of_lt_of_le (Nat.lt_size_self x)
        (Nat.pow_le_pow_right (by norm_num) (by omega : x.size ≤ y.size - 1))
    have h1 : x < y := lt_of_lt_of_le hx2 (two_pow_size_pred_le hy0)
    refine ⟨h1, ?_⟩
    have hxf : x.testBit (y.size - 1) = false := testBit_eq_false_of_size_le (by omega)
    have hyt : y.testBit (y.size - 1) = true := testBit_size_pred hy0
    have hbit : (x ^^^ y).testBit (y.size - 1) = true := by
      rw [Nat.testBit_xor, hxf, hyt]
      rfl
    have hge3 := Nat.testBit_implies_ge hbit
    omega

theorem lt_iff_top_testBit {x y : ℕ} (hne : x ≠ y) :
    x < y ↔ y.testBit ((x ^^^ y).size - 1) = true := by
  have hw0 : x ^^^ y ≠ 0 := fun h => hne (Nat.xor_eq_zero.mp h)
  have hwt : (x ^^^ y).testBit ((x ^^^ y).size - 1) = true := testBit_size_pred hw0
  have hxyne : x.testBit ((x ^^^ y).size - 1) ≠ y.testBit ((x ^^^ y).size - 1) := by
    intro h
    rw [Nat.testBit_xor, h, Bool.xor_self] at hwt
    exact Bool.false_ne_true hwt
  have hhigh : ∀ j, (x ^^^ y).size - 1 < j → x.testBit j = y.testBit j := by
    intro j hj
    have hf : (x ^^^ y).testBit j = false := testBit_eq_false_of_size_le (by omega)
    rw [Nat.testBit_xor] at hf
    cases hx : x.testBit j <;> cases hy : y.testBit j <;> simp_all
  constructor
  · intro hlt
    cases hy : y.testBit ((x ^^^ y).size - 1)
    · have hxt : x.testBit ((x ^^^ y).size - 1) = true := by
        cases hx : x.testBit ((x ^^^ y).size - 1)
        · rw [hx, hy] at hxyne
          exact absurd rfl hxyne
        · rfl
      have := Nat.lt_of_testBit ((x ^^^ y).size - 1) hy hxt
        (fun j hj => (hhigh j hj).symm)
      omega
    · rfl
  · intro hyt
    have hxf : x.testBit ((x ^^^ y).size - 1) = false := by
      cases hx : x.testBit ((x ^^^ y).size - 1)
      · rfl
      · rw [hx, hyt] at hxyne
        exact absurd rfl hxyne
    exact Nat.lt_of_testBit ((x ^^^ y).size - 1) hxf hyt hhigh

theorem ilvAux_congr : ∀ (f1 f2 x y z : ℕ), x + y + z ≤ f1 → x + y + z ≤ f2 →
    ilvAux f1 x y z = ilvAux f2 x y z := by
  intro f1
  induction f1 with
  | zero =>
      intro f2 x y z h1 h2
      have hx : x = 0 := by omega
      have hy : y = 0 := by omega
      have hz : z = 0 := by omega
      subst hx; subst hy; subst hz
      cases f2 with
      | zero => rfl
      | succ f2 => simp [ilvAux]
  | succ f1 ih =>
      intro f2 x y z h1 h2
      cases f2 with
      | zero =>
          have hx : x = 0 := by omega
          have hy : y = 0 := by omega
          have hz : z = 0 := by omega
          subst hx; subst hy; subst hz
          simp [ilvAux]
      | succ f2 =>
          by_cases h0 : x = 0 ∧ y = 0 ∧ z = 0
          · simp [ilvAux, h0]
          · simp only [ilvAux, if_neg h0]
            rw [ih f2 (x / 2) (y / 2) (z / 2) (by omega) (by omega)]

theorem interleave3_def (x y z : ℕ) : interleave3 x y z =
    if x = 0 ∧ y = 0 ∧ z = 0 then 0
    else x % 2 + 2 * (y % 2) + 4 * (z % 2) + 8 * interleave3 (x / 2) (y / 2) (z / 2) := by
  by_cases h0 : x = 0 ∧ y = 0 ∧ z = 0
  · obtain ⟨hx, hy, hz⟩ := h0
    subst hx; subst hy; subst hz
    rfl
  · rw [if_neg h0]
    have hpos : x + y + z ≠ 0 := by
      intro hc
      exact h0 ⟨by omega, by omega, by omega⟩
    obtain ⟨n, hn⟩ : ∃ n, x + y + z = n + 1 := ⟨x + y + z - 1, by omega⟩
    rw [interleave3, hn]
    rw [show ilvAux (n + 1) x y z
        = x % 2 + 2 * (y % 2) + 4 * (z % 2) + 8 * ilvAux n (x / 2) (y / 2) (z / 2) from by
      simp [ilvAux, h0]]
    rw [show ilvAux n (x / 2) (y / 2) (z / 2) = interleave3 (x / 2) (y / 2) (z / 2) from by
      rw [interleave3]
      exact ilvAux_congr n (x / 2 + y / 2 + z / 2) (x / 2) (y / 2) (z / 2) (by omega) le_rfl]

theorem interleave3_div8 (x y z : ℕ) :
    interleave3 x y z / 8 = interleave3 (x / 2) (y / 2) (z / 2) := by
  rw [interleave3_def]
  by_cases h0 : x = 0 ∧ y = 0 ∧ z = 0
  · obtain ⟨hx, hy, hz⟩ := h0
    subst hx; subst hy; subst hz
    rfl
  · rw [if_neg h0]
    omega

theorem testBit_interleave3_add3 (x y z j : ℕ) :
    (interleave3 x y z).testBit (j + 3) = (interleave3 (x / 2) (y / 2) (z / 2)).testBit j := by
  have e : j + 3 = j + 1 + 1 + 1 := by omega
  rw [e, Nat.testBit_add_one, Nat.testBit_add_one, Nat.testBit_add_one]
  rw [Nat.div_div_eq_div_mul, Nat.div_div_eq_div_mul]
  norm_num
  rw [interleave3_div8]

theorem testBit_interleave3_base0 (x y z : ℕ) :
    (interleave3 x y z).testBit 0 = x.testBit 0 := by
  rw [Nat.testBit_zero, Nat.testBit_zero, interleave3_def]
  by_cases h0 : x = 0 ∧ y = 0 ∧ z = 0
  · rw [if_pos h0, h0.1]
  · rw [if_neg h0]
    have e : (x % 2 + 2 * (y % 2) + 4 * (z % 2)
        + 8 * interleave3 (x / 2) (y / 2) (z / 2)) % 2 = x % 2 := by omega
    rw [e]

theorem testBit_interleave3_base1 (x y z : ℕ) :
    (interleave3 x y z).testBit 1 = y.testBit 0 := by
  rw [Nat.testBit_to_div_mod, Nat.testBit_to_div_mod, interleave3_def]
  by_cases h0 : x = 0 ∧ y = 0 ∧ z = 0
  · rw [if_pos h0, h0.2.1]
  · rw [if_neg h0]
    have e : (x % 2 + 2 * (y % 2) + 4 * (z % 2)
        + 8 * interleave3 (x / 2) (y / 2) (z / 2)) / 2 ^ 1 % 2 = y / 2 ^ 0 % 2 := by
      norm_num
      omega
    rw [e]

theorem testBit_interleave3_base2 (x y z : ℕ) :
    (interleave3 x y z).testBit 2 = z.testBit 0 := by
  rw [Nat.testBit_to_div_mod, Nat.testBit_to_div_mod, interleave3_def]
  by_cases h0 : x = 0 ∧ y = 0 ∧ z = 0
  · rw [if_pos h0, h0.2.2]
  · rw [if_neg h0]
    have e : (x % 2 + 2 * (y % 2) + 4 * (z % 2)
        + 8 * interleave3 (x / 2) (y / 2) (z / 2)) / 2 ^ 2 % 2 = z / 2 ^ 0 % 2 := by
      norm_num
      omega
    rw [e]

theorem testBit_interleave3_x (x y z k : ℕ) :
    (interleave3 x y z).testBit (3 * k) = x.testBit k := by
  induction k generalizing x y z with
  | zero => simpa using testBit_interleave3_base0 x y z
  | succ k ih =>
      have e : 3 * (k + 1) = 3 * k + 3 := by ring
      rw [e, testBit_interleave3_add3, ih, ← Nat.testBit_add_one]

theorem testBit_interleave3_y (x y z k : ℕ) :
    (interleave3 x y z).testBit (3 * k + 1) = y.testBit k := by
  induction k generalizing x y z with
  | zero => simpa using testBit_interleave3_base1 x y z
  | succ k ih =>
      have e : 3 * (k + 1) + 1 = 3 * k + 1 + 3 := by ring
      rw [e, testBit_interleave3_add3, ih, ← Nat.testBit_add_one]

theorem testBit_interleave3_z (x y z k : ℕ) :
    (interleave3 x y z).testBit (3 * k + 2) = z.testBit k := by
  induction k generalizing x y z with
  | zero => simpa using testBit_interleave3_base2 x y z
  | succ k ih =>
      have e : 3 * (k + 1) + 2 = 3 * k + 2 + 3 := by ring
      rw [e, testBit_interleave3_add3, ih, ← Nat.testBit_add_one]

theorem testBit_interleave3 (x y z j : ℕ) :
    (interleave3 x y z).testBit j
      = (if j % 3 = 0 then x else if j % 3 = 1 then y else z).testBit (j / 3) := by
  rcases (by omega : j % 3 = 0 ∨ j % 3 = 1 ∨ j % 3 = 2) with h | h | h
  · rw [h]
    simp only [if_pos rfl]
    obtain ⟨k, rfl⟩ : ∃ k, j = 3 * k := ⟨j / 3, by omega⟩
    rw [testBit_interleave3_x]
    congr 1
    omega
  · rw [h]
    norm_num
    obtain ⟨k, rfl⟩ : ∃ k, j = 3 * k + 1 := ⟨j / 3, by omega⟩
    rw [testBit_interleave3_y]
    congr 1
    omega
  · rw [h]
    norm_num
    obtain ⟨k, rfl⟩ : ∃ k, j = 3 * k + 2 := ⟨j / 3, by omega⟩
    rw [testBit_interleave3_z]
    congr 1
    omega

theorem interleave3_xor (x1 y1 z1 x2 y2 z2 : ℕ) :
    interleave3 (x1 ^^^ x2) (y1 ^^^ y2) (z1 ^^^ z2)
      = interleave3 x1 y1 z1 ^^^ interleave3 x2 y2 z2 := by
  apply Nat.eq_of_testBit_eq
  intro j
  rw [Nat.testBit_xor, testBit_interleave3, testBit_interleave3, testBit_interleave3]
  rcases (by omega : j % 3 = 0 ∨ j % 3 = 1 ∨ j % 3 = 2) with h | h | h <;>
    rw [h] <;> norm_num

theorem interleave3_eq_zero (x y z : ℕ) :
    interleave3 x y z = 0 ↔ x = 0 ∧ y = 0 ∧ z = 0 := by
  constructor
  · intro h
    refine ⟨?_, ?_, ?_⟩
    · apply Nat.eq_of_testBit_eq
      intro k
      rw [← testBit_interleave3_x x y z k, h]
      simp
    · apply Nat.eq_of_testBit_eq
      intro k
      rw [← testBit_interleave3_y x y z k, h]
      simp
    · apply Nat.eq_of_testBit_eq
      intro k
      rw [← testBit_interleave3_z x y z k, h]
      simp
  · rintro ⟨rfl, rfl, rfl⟩
    rfl

theorem lessMsb_false_iff (x y : ℕ) : lessMsb x y = false ↔ ¬ (x.size < y.size) := by
  constructor
  · intro h hc
    have htrue := (lessMsb_iff x y).mpr hc
    rw [h] at htrue
    exact Bool.false_ne_true htrue
  · intro h
    cases hb : lessMsb x y
    · rfl
    · exact absurd ((lessMsb_iff x y).mp hb) h

theorem zMsd_unfold (a b : Vec3N) :
    zMsd a b =
      (if lessMsb (idx3 a 2 ^^^ idx3 b 2) (idx3 a 1 ^^^ idx3 b 1) then
        (if lessMsb (idx3 a 1 ^^^ idx3 b 1) (idx3 a 0 ^^^ idx3 b 0) then 0 else 1)
      else
        (if lessMsb (idx3 a 2 ^^^ idx3 b 2) (idx3 a 0 ^^^ idx3 b 0) then 0 else 2)) := by
  rw [zMsd]
  cases hb : lessMsb (idx3 a 2 ^^^ idx3 b 2) (idx3 a 1 ^^^ idx3 b 1) <;> simp [hb]

theorem zMsd_spec (a b : Vec3N) :
    zMsd a b < 3
    ∧ (∀ d, d < 3 → (idx3 a d ^^^ idx3 b d).size
        ≤ (idx3 a (zMsd a b) ^^^ idx3 b (zMsd a b)).size)
    ∧ (∀ d, d < 3 → zMsd a b < d → (idx3 a d ^^^ idx3 b d).size
        < (idx3 a (zMsd a b) ^^^ idx3 b (zMsd a b)).size) := by
  rw [zMsd_unfold]
  cases hb1 : lessMsb (idx3 a 2 ^^^ idx3 b 2) (idx3 a 1 ^^^ idx3 b 1)
  · have h1 := (lessMsb_false_iff _ _).mp hb1
    cases hb2 : lessMsb (idx3 a 2 ^^^ idx3 b 2) (idx3 a 0 ^^^ idx3 b 0)
    · have h2 := (lessMsb_false_iff _ _).mp hb2
      simp only [Bool.false_eq_true, if_false]
      refine ⟨by omega, ?_, ?_⟩
      · intro d hd
        rcases (by omega : d = 0 ∨ d = 1 ∨ d = 2) with rfl | rfl | rfl <;> omega
      · intro d hd hgt
        omega
    · have h2 := (lessMsb_iff _ _).mp hb2
      simp only [Bool.false_eq_true, if_false, if_true]
      refine ⟨by omega, ?_, ?_⟩
      · intro d hd
        rcases (by omega : d = 0 ∨ d = 1 ∨ d = 2) with rfl | rfl | rfl <;> omega
      · intro d hd hgt
        rcases (by omega : d = 1 ∨ d = 2) with rfl | rfl <;> omega
  · have h1 := (lessMsb_iff _ _).mp hb1
    cases hb2 : lessMsb (idx3 a 1 ^^^ idx3 b 1) (idx3 a 0 ^^^ idx3 b 0)
    · have h2 := (lessMsb_false_iff _ _).mp hb2
      simp only [Bool.false_eq_true, if_false, if_true]
      refine ⟨by omega, ?_, ?_⟩
      · intro d hd
        rcases (by omega : d = 0 ∨ d = 1 ∨ d = 2) with rfl | rfl | rfl <;> omega
      · intro d hd hgt
        rcases (by omega : d = 2) with rfl
        omega
    · have h2 := (lessMsb_iff _ _).mp hb2
      simp only [if_true]
      refine ⟨by omega, ?_, ?_⟩
      · intro d hd
        rcases (by omega : d = 0 ∨ d = 1 ∨ d = 2) with rfl | rfl | rfl <;> omega
      · intro d hd hgt
        rcases (by omega : d = 1 ∨ d = 2) with rfl | rfl <;> omega

theorem mortonKey_xor (a b : Vec3N) :
    mortonKey a ^^^ mortonKey b
      = interleave3 (idx3 a 0 ^^^ idx3 b 0) (idx3 a 1 ^^^ idx3 b 1) (idx3 a 2 ^^^ idx3 b 2) := by
  rw [interleave3_xor]
  rfl

theorem mortonKey_inj {a b : Vec3N} (h : mortonKey a = mortonKey b) : a = b := by
  have hx : mortonKey a ^^^ mortonKey b = 0 := by
    rw [h, Nat.xor_self]
  rw [mortonKey_xor, interleave3_eq_zero] at hx
  obtain ⟨h0, h1, h2⟩ := hx
  have e0 := Nat.xor_eq_zero.mp h0
  have e1 := Nat.xor_eq_zero.mp h1
  have e2 := Nat.xor_eq_zero.mp h2
  obtain ⟨a0, a1, a2⟩ := a
  obtain ⟨b0, b1, b2⟩ := b
  simp only [idx3] at e0 e1 e2
  simp_all

theorem cmpZorder_lt_iff (a b : Vec3N) :
    cmpZorder a b < 0 ↔ mortonKey a < mortonKey b := by
  by_cases heq : a = b
  · subst heq
    constructor
    · intro h
      rw [cmpZorder] at h
      omega
    · intro h
      omega
  · obtain ⟨hmd3, hle, hlt⟩ := zMsd_spec a b
    have hsome : ∃ d, d < 3 ∧ idx3 a d ^^^ idx3 b d ≠ 0 := by
      by_contra hc
      push_neg at hc
      apply heq
      have e0 := Nat.xor_eq_zero.mp (hc 0 (by omega))
      have e1 := Nat.xor_eq_zero.mp (hc 1 (by omega))
      have e2 := Nat.xor_eq_zero.mp (hc 2 (by omega))
      obtain ⟨a0, a1, a2⟩ := a
      obtain ⟨b0, b1, b2⟩ := b
      simp only [idx3] at e0 e1 e2
      simp_all
    have hDm0 : idx3 a (zMsd a b) ^^^ idx3 b (zMsd a b) ≠ 0 := by
      obtain ⟨d, hd3, hd0⟩ := hsome
      intro hc
      have hszle := hle d hd3
      rw [hc, Nat.size_zero, Nat.le_zero] at hszle
      exact hd0 (Nat.size_eq_zero.mp hszle)
    have hszpos : 0 < (idx3 a (zMsd a b) ^^^ idx3 b (zMsd a b)).size := by
      rcases Nat.eq_zero_or_pos (idx3 a (zMsd a b) ^^^ idx3 b (zMsd a b)).size with h0 | h0
      · exact absurd (Nat.size_eq_zero.mp h0) hDm0
      · exact h0
    have hidxne : idx3 a (zMsd a b) ≠ idx3 b (zMsd a b) := by
      intro hc
      exact hDm0 (by rw [hc, Nat.xor_self])
    have hM0 : mortonKey a ^^^ mortonKey b ≠ 0 := by
      rw [mortonKey_xor]
      intro hc
      rw [interleave3_eq_zero] at hc
      rcases (by omega : zMsd a b = 0 ∨ zMsd a b = 1 ∨ zMsd a b = 2) with h | h | h
      · rw [h] at hDm0
        exact hDm0 hc.1
      · rw [h] at hDm0
        exact hDm0 hc.2.1
      · rw [h] at hDm0
        exact hDm0 hc.2.2
    have hmne : mortonKey a ≠ mortonKey b := by
      intro hc
      exact hM0 (by rw [hc, Nat.xor_self])
    have hbit_top : (mortonKey a ^^^ mortonKey b).testBit
        (3 * ((idx3 a (zMsd a b) ^^^ idx3 b (zMsd a b)).size - 1) + zMsd a b) = true := by
      rw [mortonKey_xor, testBit_interleave3]
      have hmod : (3 * ((idx3 a (zMsd a b) ^^^ idx3 b (zMsd a b)).size - 1) + zMsd a b) % 3
          = zMsd a b := by omega
      have hdiv : (3 * ((idx3 a (zMsd a b) ^^^ idx3 b (zMsd a b)).size - 1) + zMsd a b) / 3
          = (idx3 a (zMsd a b) ^^^ idx3 b (zMsd a b)).size - 1 := by omega
      rw [hmod, hdiv]
      rcases (by omega : zMsd a b = 0 ∨ zMsd a b = 1 ∨ zMsd a b = 2) with h | h | h
      · rw [h] at hDm0 ⊢
        rw [if_pos rfl]
        exact testBit_size_pred hDm0
      · rw [h] at hDm0 ⊢
        rw [if_neg (by omega), if_pos rfl]
        exact testBit_size_pred hDm0
      · rw [h] at hDm0 ⊢
        rw [if_neg (by omega), if_neg (by omega)]
        exact testBit_size_pred hDm0
    have hbit_high : ∀ j,
        (3 * ((idx3 a (zMsd a b) ^^^ idx3 b (zMsd a b)).size - 1) + zMsd a b) < j →
        (mortonKey a ^^^ mortonKey b).testBit j = false := by
      intro j hj
      rw [mortonKey_xor, testBit_interleave3]
      rcases (by omega : j % 3 = 0 ∨ j % 3 = 1 ∨ j % 3 = 2) with h | h | h
      · rw [h, if_pos rfl]
        apply testBit_eq_false_of_size_le
        have hs0 := hle 0 (by omega)
        rcases (by omega : 0 = zMsd a b ∨ 0 < zMsd a b) with h2 | h2
        · rw [← h2] at hj
          omega
        · omega
      · rw [h, if_neg (by omega), if_pos rfl]
        apply testBit_eq_false_of_size_le
        have hs1 := hle 1 (by omega)
        rcases (by omega : zMsd a b = 0 ∨ 1 = zMsd a b ∨ zMsd a b = 2) with h2 | h2 | h2
        · have hl1 := hlt 1 (by omega) (by omega)
          rw [h2] at hj hl1
          omega
        · rw [← h2] at hj
          omega
        · rw [h2] at hj hs1
          omega
      · rw [h, if_neg (by omega), if_neg (by omega)]
        apply testBit_eq_false_of_size_le
        have hs2 := hle 2 (by omega)
        rcases (by omega : 2 = zMsd a b ∨ zMsd a b < 2) with h2 | h2
        · rw [← h2] at hj
          omega
        · have hl2 := hlt 2 (by omega) h2
          rcases (by omega : zMsd a b = 0 ∨ zMsd a b = 1) with h3 | h3 <;>
            rw [h3] at hj hl2 <;> omega
    have hMsize : (mortonKey a ^^^ mortonKey b).size
        = 3 * ((idx3 a (zMsd a b) ^^^ idx3 b (zMsd a b)).size - 1) + zMsd a b + 1 :=
      size_eq_succ_of hbit_top hbit_high
    have hchain3 : (idx3 b (zMsd a b)).testBit
          ((idx3 a (zMsd a b) ^^^ idx3 b (zMsd a b)).size - 1)
        = (mortonKey b).testBit
          (3 * ((idx3 a (zMsd a b) ^^^ idx3 b (zMsd a b)).size - 1) + zMsd a b) := by
      rw [show mortonKey b = interleave3 (idx3 b 0) (idx3 b 1) (idx3 b 2) from rfl]
      rw [testBit_interleave3]
      have hmod : (3 * ((idx3 a (zMsd a b) ^^^ idx3 b (zMsd a b)).size - 1) + zMsd a b) % 3
          = zMsd a b := by omega
      have hdiv : (3 * ((idx3 a (zMsd a b) ^^^ idx3 b (zMsd a b)).size - 1) + zMsd a b) / 3
          = (idx3 a (zMsd a b) ^^^ idx3 b (zMsd a b)).size - 1 := by omega
      rw [hmod, hdiv]
      rcases (by omega : zMsd a b = 0 ∨ zMsd a b = 1 ∨ zMsd a b = 2) with h | h | h
      · rw [h, if_pos rfl]
      · rw [h, if_neg (by omega), if_pos rfl]
      · rw [h, if_neg (by omega), if_neg (by omega)]
    have hchain1 : cmpZorder a b < 0 ↔ idx3 a (zMsd a b) < idx3 b (zMsd a b) := by
      rw [cmpZorder]
      omega
    have hchain2 := lt_iff_top_testBit hidxne
    have hchain4 := lt_iff_top_testBit hmne
    rw [hchain1, hchain2, hchain3, hchain4, hMsize]
    rw [show 3 * ((idx3 a (zMsd a b) ^^^ idx3 b (zMsd a b)).size - 1) + zMsd a b + 1 - 1
        = 3 * ((idx3 a (zMsd a b) ^^^ idx3 b (zMsd a b)).size - 1) + zMsd a b from by omega]

/--
C5 (confirmed): `_cmp_zorder` defines a strict total order on integer
3-D brick coordinates: `cmpZorder a b < 0` holds exactly when the
Morton (Z-curve) code of `a` — bit interleaving in which the axis whose
componentwise XOR has the highest set bit is most significant, ties
resolved by the fixed axis priority 2 > 1 > 0 — is below that of `b`;
the relation is irreflexive, transitive and total on distinct
coordinates, and sorting the 8 octant coordinates (0,0,0)…(1,1,1) with
the comparator yields exactly the reference Morton order (the octants
sorted by their Morton keys).
-/
theorem c5_zorder_total_order :
    (∀ a b : Vec3N, cmpZorder a b < 0 ↔ mortonKey a < mortonKey b)
    ∧ (∀ a : Vec3N, ¬ cmpZorder a a < 0)
    ∧ (∀ a b c : Vec3N, cmpZorder a b < 0 → cmpZorder b c < 0 → cmpZorder a c < 0)
    ∧ (∀ a b : Vec3N, a ≠ b → cmpZorder a b < 0 ∨ cmpZorder b a < 0)
    ∧ pySortCoords (fun u v => decide (cmpZorder u v < 0)) octantCoords
        = pySortCoords (fun u v => decide (mortonKey u < mortonKey v)) octantCoords := by
  refine ⟨cmpZorder_lt_iff, ?_, ?_, ?_, ?_⟩
  · intro a h
    rw [cmpZorder] at h
    omega
  · intro a b c hab hbc
    rw [cmpZorder_lt_iff] at hab hbc ⊢
    omega
  · intro a b hne
    rw [cmpZorder_lt_iff, cmpZorder_lt_iff]
    rcases Nat.lt_trichotomy (mortonKey a) (mortonKey b) with h | h | h
    · exact Or.inl h
    · exact absurd (mortonKey_inj h) hne
    · exact Or.inr h
  · decide

/-- C5 witness: transitivity applied at three concrete coordinates. -/
theorem c5_zorder_total_order_witness :
    cmpZorder (0, 0, 0) (0, 1, 0) < 0 :=
  c5_zorder_total_order.2.2.1 (0, 0, 0) (1, 0, 0) (0, 1, 0) (by decide) (by decide)


end Vol2mesh
